import Mathlib

set_option maxHeartbeats 1000000

/-! Shallow embedding of the staging-and-commit engine of a spreadsheet to
database adapter (`adapter.py`): the `AdapterStaging` deferred write buffer
with its pre and post commit hooks, and the header resolution of
`BaseAdapter`.  Modelling conventions: Python dictionaries are insertion
ordered association lists, model classes and primary keys are natural
number tags, Python exceptions are an explicit error type threaded through
`Except`.  Row attributes and staged cell values are scalars (`Value`);
hook payloads are the dictionaries the hooks thread through a commit
(`HookData`), matching the payloads this program creates (`{}` at
registration, replacements returned by hooks). -/

/-- Scalar Python values as they occur in rows and staged cells. -/
inductive Value where
  | none
  | str (s : String)
  | int (n : Int)
  | bool (b : Bool)
deriving Repr, DecidableEq

/-- A hook-carried payload: a Python dictionary. -/
abbrev HookData := List (String × Value)

/-- Python truthiness of `result` in `result if result else ...`
(line 155): `None` and the empty dictionary are falsy. -/
def pyTruthy : Option HookData → Bool
  | Option.none => false
  | some d => !d.isEmpty

/-- Exceptions that the modelled code paths can raise. -/
inductive Err where
  | objectDoesNotExist            -- django.core.exceptions.ObjectDoesNotExist
  | nameErr (n : String)          -- NameError
  | attributeErr (n : String)     -- AttributeError
  | keyErrData (pk : Nat)         -- KeyError on commit_lambdas_data
  | keyErrCol (k : String)        -- KeyError on a column_updates dictionary
  | valueErr (msg : String)       -- ValueError
  | lookupErr (msg : String)      -- LookupError (never raised by this code)
  | custom (code : Nat)           -- an arbitrary exception raised inside a hook
deriving Repr, DecidableEq

def Err.isLookupErr : Err → Bool
  | .lookupErr _ => true
  | _ => false

/-- First-match lookup in an insertion ordered association list (Python
dictionaries have unique keys, so first match equals the unique match). -/
def lookupA {α β : Type} [DecidableEq α] : List (α × β) → α → Option β
  | [], _ => Option.none
  | (k0, v) :: rest, k => if k0 = k then some v else lookupA rest k

/-- Python `d[k] = v`: overwrite in place, or append a new key at the end. -/
def setItemA {α β : Type} [DecidableEq α] : List (α × β) → α → β → List (α × β)
  | [], k, v => [(k, v)]
  | (k0, v0) :: rest, k, v =>
      if k0 = k then (k, v) :: rest else (k0, v0) :: setItemA rest k v

/-- Removal of a key (used for `row.delete()` on the store). -/
def eraseA {α β : Type} [DecidableEq α] : List (α × β) → α → List (α × β)
  | [], _ => []
  | (k0, v0) :: rest, k => if k0 = k then rest else (k0, v0) :: eraseA rest k

/-- Python `dict.update(**kwargs)`: later pairs processed in order. -/
def dictUpdate (d upd : List (String × Value)) : List (String × Value) :=
  upd.foldl (fun acc kv => setItemA acc kv.1 kv.2) d

/-- A database row as an attribute map (`getattr` / `setattr` surface). -/
abbrev Row := List (String × Value)

/-- Staged column updates for one row (`column_updates` dictionaries). -/
abbrev Columns := List (String × Value)

/-- The persistent store: one live row per (model, primary key) pair;
`model.objects.get(pk=pk)`, `row.save()` and `row.delete()` act on it. -/
abbrev Store := List ((Nat × Nat) × Row)

/-- `getattr(row, key)`: AttributeError when the attribute is missing. -/
def getattr (row : Row) (k : String) : Except Err Value :=
  match lookupA row k with
  | some v => Except.ok v
  | Option.none => Except.error (Err.attributeErr k)

/-- A commit hook (`lambda data, row: ...`): receives the accumulated hook
data and the row, returns a replacement payload or `None`, and may raise. -/
abbrev Hook := HookData → Row → Except Err (Option HookData)

/-- The staging buffer state (`AdapterStaging.__init__`, lines 20-27).
`commit_lambdas` flattens the phase dictionary of per-pk hook lists into a
map keyed by (phase, pk); `delete_mapping` is initialised in the source
but never read or written afterwards, so it is omitted. -/
structure AdapterStaging where
  update_mapping : List (Nat × List (Nat × Columns)) := []
  commit_lambdas : List ((String × Nat) × List Hook) := []
  commit_lambdas_data : List (Nat × HookData) := []

def PRECOMMIT_DELETE_LAMBDA : String := "precommit_delete"
def POSTCOMMIT_DELETE_LAMBDA : String := "postcommit_delete"
def PRECOMMIT_UPDATE_LAMBDA : String := "precommit_update"
def POSTCOMMIT_UPDATE_LAMBDA : String := "postcommit_update"

/-- The class attribute `AdapterStaging.EXEMPTED_COLUMNS = []` (line 12).
The reference to it at line 59 of the source is the bare name
`EXEMPTED_COLUMNS`, which Python does not resolve to the class attribute
inside a method body (class scopes are not part of the name lookup chain
of methods), and no module level binding of that name exists; see
`commitColumns`. -/
def EXEMPTED_COLUMNS : List String := []

/-- Observable actions of a commit, for stating trace properties. -/
inductive Event where
  | hook (phase : String) (pk : Nat) (idx : Nat)
  | deleted (model : Nat) (pk : Nat)
  | saved (model : Nat) (pk : Nat)
deriving Repr, DecidableEq

/-- The mutable state a running `commit()` acts on: the store, the buffer
(`self`, whose `commit_lambdas_data` the hooks rewrite), the trace of
observable actions, and the `rows_updated` counter (line 42, which keeps
its value across the per-row `except ObjectDoesNotExist: pass`). -/
structure CState where
  s : Store
  b : AdapterStaging
  ev : List Event
  n : Nat

/-- A step of the commit: either a new state, or a raised exception
together with the state at the moment of the raise (Python exceptions do
not roll back mutations already performed). -/
abbrev CommitM := Except (Err × CState) CState

/-- `_run_lambdas` inner loop (lines 153-155): run the registered hooks in
registration order; each receives `commit_lambdas_data[pk]` and the row,
and its return value replaces the stored payload only when it is truthy
(`result if result else self.commit_lambdas_data[pk]`). -/
def runHooks (phase : String) (pk : Nat) (row : Row) :
    List Hook → Nat → CState → CommitM
  | [], _, st => Except.ok st
  | h :: rest, idx, st =>
      match lookupA st.b.commit_lambdas_data pk with
      | Option.none => Except.error (Err.keyErrData pk, st)
      | some d =>
          match h d row with
          | Except.error e => Except.error (e, st)
          | Except.ok result =>
              let data1 :=
                match result with
                | some newData =>
                    if pyTruthy (some newData) then
                      setItemA st.b.commit_lambdas_data pk newData
                    else st.b.commit_lambdas_data
                | Option.none => st.b.commit_lambdas_data
              let st1 : CState :=
                { st with b := { st.b with commit_lambdas_data := data1 },
                          ev := st.ev ++ [Event.hook phase pk idx] }
              runHooks phase pk row rest (idx + 1) st1

/-- `AdapterStaging._run_lambdas` (lines 142-155): a no-op when no hook is
registered for this phase and pk. -/
def _run_lambdas (phase : String) (pk : Nat) (row : Row) (st : CState) : CommitM :=
  match lookupA st.b.commit_lambdas (phase, pk) with
  | Option.none => Except.ok st
  | some hooks => runHooks phase pk row hooks 0 st

/-- `if key is 'delete_tag' and column_updates[key] == 'X':` (line 51):
the dictionary is indexed only after the key test (short circuit), and on
the keys this program stages, `is` on the interned literal behaves as
string equality. -/
def deleteCheck (column_updates : Columns) (key : String) (st : CState) :
    Except (Err × CState) Bool :=
  if key = "delete_tag" then
    match lookupA column_updates key with
    | Option.none => Except.error (Err.keyErrCol key, st)
    | some cuv => Except.ok (cuv == Value.str "X")
  else Except.ok false

/-- The `for key, value in column_updates.items():` loop of `commit()`
(lines 49-61), on the still unprocessed suffix `remaining`.  Returns the
new state plus the local `columns_updated` counter.  The branch taken when
a value differs models line 59 faithfully: the bare name
`EXEMPTED_COLUMNS` is unbound at runtime (the class attribute of line 12
is not in scope inside a method body and there is no module level binding
of that name), so CPython raises `NameError` there, and the `setattr` and
`columns_updated += 1` below it are unreachable. -/
def commitColumns (model pk : Nat) (column_updates : Columns) (row : Row) :
    List (String × Value) → Nat → CState → Except (Err × CState) (CState × Nat)
  | [], columns_updated, st => Except.ok (st, columns_updated)
  | (key, _value) :: rest, columns_updated, st =>
      match deleteCheck column_updates key st with
      | Except.error e => Except.error e
      | Except.ok true =>
          match _run_lambdas PRECOMMIT_DELETE_LAMBDA pk row st with
          | Except.error e => Except.error e
          | Except.ok st1 =>
              -- `row.delete()` (line 53)
              match _run_lambdas POSTCOMMIT_DELETE_LAMBDA pk row
                  { st1 with s := eraseA st1.s (model, pk),
                             ev := st1.ev ++ [Event.deleted model pk] } with
              | Except.error e => Except.error e
              | Except.ok st3 =>
                  -- `rows_updated += 1` (line 55), then the loop continues
                  -- with the remaining staged columns (no break).
                  commitColumns model pk column_updates row rest columns_updated
                    { st3 with n := st3.n + 1 }
      | Except.ok false =>
          -- `elif getattr(row, key) != column_updates[key]:` (line 57)
          match getattr row key with
          | Except.error e => Except.error (e, st)
          | Except.ok current =>
              match lookupA column_updates key with
              | Option.none => Except.error (Err.keyErrCol key, st)
              | some cuv =>
                  if current == cuv then
                    -- equal value: neither branch taken, move on
                    commitColumns model pk column_updates row rest columns_updated st
                  else
                    -- `if key not in EXEMPTED_COLUMNS:` (line 59): NameError
                    Except.error (Err.nameErr "EXEMPTED_COLUMNS", st)

/-- The body of the `try:` block for one pending update (lines 47-67):
look the live row up, run the column loop, and when `columns_updated > 0`
run the update hooks around `row.save()` and count the row. -/
def tryProcessRow (model pk : Nat) (column_updates : Columns) (st : CState) : CommitM :=
  match lookupA st.s (model, pk) with
  | Option.none => Except.error (Err.objectDoesNotExist, st)  -- model.objects.get
  | some row =>
      match commitColumns model pk column_updates row column_updates 0 st with
      | Except.error e => Except.error e
      | Except.ok (st1, columns_updated) =>
          if columns_updated > 0 then
            match _run_lambdas PRECOMMIT_UPDATE_LAMBDA pk row st1 with
            | Except.error e => Except.error e
            | Except.ok st2 =>
                -- `row.save()` (line 65)
                match _run_lambdas POSTCOMMIT_UPDATE_LAMBDA pk row
                    { st2 with s := setItemA st2.s (model, pk) row,
                               ev := st2.ev ++ [Event.saved model pk] } with
                | Except.error e => Except.error e
                | Except.ok st4 => Except.ok { st4 with n := st4.n + 1 }
          else Except.ok st1

/-- One pending update inside the `try/except ObjectDoesNotExist` (lines
46-69): `ObjectDoesNotExist` is swallowed (`pass`) wherever it was raised
inside the block, keeping every mutation already performed; every other
exception propagates. -/
def processRow (model pk : Nat) (column_updates : Columns) (st : CState) : CommitM :=
  match tryProcessRow model pk column_updates st with
  | Except.error (Err.objectDoesNotExist, st1) => Except.ok st1
  | r => r

/-- `for pk, column_updates in update_vals:` (line 45). -/
def commitEntries (model : Nat) : List (Nat × Columns) → CState → CommitM
  | [], st => Except.ok st
  | (pk, cu) :: rest, st =>
      match processRow model pk cu st with
      | Except.error e => Except.error e
      | Except.ok st1 => commitEntries model rest st1

/-- `for model, update_vals in self.update_mapping.items():` (line 44). -/
def commitModels : List (Nat × List (Nat × Columns)) → CState → CommitM
  | [], st => Except.ok st
  | (model, entries) :: rest, st =>
      match commitEntries model entries st with
      | Except.error e => Except.error e
      | Except.ok st1 => commitModels rest st1

/-- `AdapterStaging.commit()` (lines 36-71): processes every staged pending
update against the store and returns the final state, whose `n` field is
the returned `rows_updated` count. -/
def commit (b : AdapterStaging) (s : Store) : CommitM :=
  commitModels b.update_mapping { s := s, b := b, ev := [], n := 0 }

/-- `AdapterStaging._key_index` (lines 29-34): index of the first pending
entry for `pk` in a model's update list, `-1` when there is none. -/
def _key_index (entries : List (Nat × Columns)) (pk : Nat) : Int :=
  match entries.findIdx? (fun m => m.1 = pk) with
  | some idx => (idx : Int)
  | Option.none => -1

/-- The effect of `add` on a model's update list: merge `kwargs` into the
first entry whose pk matches (the `_key_index` scan followed by
`update_mapping[model][key_index][1].update(**kwargs)`), else append. -/
def mergeEntry : List (Nat × Columns) → Nat → Columns → List (Nat × Columns)
  | [], pk, kwargs => [(pk, kwargs)]
  | (pk0, cu) :: rest, pk, kwargs =>
      if pk0 = pk then (pk0, dictUpdate cu kwargs) :: rest
      else (pk0, cu) :: mergeEntry rest pk kwargs

/-- `AdapterStaging.add` (lines 73-93). -/
def add (b : AdapterStaging) (model pk : Nat) (kwargs : Columns) : AdapterStaging :=
  match lookupA b.update_mapping model with
  | Option.none =>
      { b with update_mapping := setItemA b.update_mapping model [(pk, kwargs)] }
  | some entries =>
      { b with update_mapping := setItemA b.update_mapping model (mergeEntry entries pk kwargs) }

/-- `AdapterStaging.delete` (lines 95-111): always appends a fresh
`{'delete_tag': 'X'}` entry, never merging with an existing one. -/
def delete (b : AdapterStaging) (model pk : Nat) : AdapterStaging :=
  match lookupA b.update_mapping model with
  | Option.none =>
      { b with update_mapping :=
          setItemA b.update_mapping model [(pk, [("delete_tag", Value.str "X")])] }
  | some entries =>
      { b with update_mapping :=
          setItemA b.update_mapping model (entries ++ [(pk, [("delete_tag", Value.str "X")])]) }

/-- `AdapterStaging.add_commit_runnable` (lines 113-128): appends the hook
for (phase, pk); on the first registration for that (phase, pk) pair it
also runs `self.commit_lambdas_data[pk] = {}` (line 126) -- even when that
pk already carries accumulated data from hooks of another phase. -/
def add_commit_runnable (b : AdapterStaging) (runnable_type : String) (pk : Nat)
    (runnable : Hook) : AdapterStaging :=
  match lookupA b.commit_lambdas (runnable_type, pk) with
  | Option.none =>
      { b with commit_lambdas := setItemA b.commit_lambdas (runnable_type, pk) [runnable],
               commit_lambdas_data := setItemA b.commit_lambdas_data pk [] }
  | some hooks =>
      { b with commit_lambdas :=
          setItemA b.commit_lambdas (runnable_type, pk) (hooks ++ [runnable]) }

/-- `AdapterStaging.has_commit_runnable` (lines 130-140). -/
def has_commit_runnable (b : AdapterStaging) (runnable_type : String) (pk : Nat) : Bool :=
  (lookupA b.commit_lambdas (runnable_type, pk)).isSome

/-- A column definition (`Column`, lines 158-172). -/
structure Column where
  header : String
  extractor : Option (Row → Value) := Option.none
  inserter : Option (AdapterStaging → Nat → Value → AdapterStaging) := Option.none

def Column.is_modifiable (c : Column) : Bool := c.inserter.isSome

/-- Lines 185-186: `if header_name.endswith('*'): header_name = header_name[:-1]`,
expressed on the character list so that it evaluates by kernel reduction. -/
def stripHeader (header_name : String) : String :=
  match header_name.data.getLast? with
  | some c => if c = '*' then String.mk header_name.data.dropLast else header_name
  | Option.none => header_name

/-- `BaseAdapter._get_header_key` (lines 183-191): strip one trailing `*`,
then return the key of the first column whose header matches exactly;
raises `ValueError('Header is not defined in table')` otherwise. -/
def _get_header_key (columns : List (String × Column)) (header_name : String) :
    Except Err String :=
  match columns.find? (fun kc => kc.2.header = stripHeader header_name) with
  | some kc => Except.ok kc.1
  | Option.none => Except.error (Err.valueErr "Header is not defined in table")

/-- Projections of a commit outcome that carry no function values, for
stating concrete facts about concrete runs. -/
def resultCount : CommitM → Option Nat
  | Except.ok st => some st.n
  | Except.error _ => Option.none

def resultStore : CommitM → Option Store
  | Except.ok st => some st.s
  | Except.error _ => Option.none

def resultEvents : CommitM → Option (List Event)
  | Except.ok st => some st.ev
  | Except.error _ => Option.none

def resultData : CommitM → Option (List (Nat × HookData))
  | Except.ok st => some st.b.commit_lambdas_data
  | Except.error _ => Option.none

def errOf : CommitM → Option Err
  | Except.ok _ => Option.none
  | Except.error (e, _) => some e

/-- The hooks registered for one phase and pk. -/
def hooksFor (b : AdapterStaging) (phase : String) (pk : Nat) : List Hook :=
  (lookupA b.commit_lambdas (phase, pk)).getD []

/-- Rows touched (deleted or saved) by a trace, in order. -/
def touchedRows (ev : List Event) : List (Nat × Nat) :=
  ev.filterMap (fun e =>
    match e with
    | Event.deleted m pk => some (m, pk)
    | Event.saved m pk => some (m, pk)
    | Event.hook _ _ _ => Option.none)

def Event.isDeleted : Event → Bool
  | Event.deleted _ _ => true
  | _ => false

def Event.isSaved : Event → Bool
  | Event.saved _ _ => true
  | _ => false

/-! ### Association list lemmas -/

/-- First-defined-wins choice, for stating dictionary merges. -/
def orO {α : Type} : Option α → Option α → Option α
  | some v, _ => some v
  | Option.none, b => b

theorem lookupA_setItemA_self {α β : Type} [DecidableEq α] (d : List (α × β)) (k : α) (v : β) :
    lookupA (setItemA d k v) k = some v := by
  induction d with
  | nil => simp [setItemA, lookupA]
  | cons p rest ih =>
      obtain ⟨k0, v0⟩ := p
      by_cases h : k0 = k
      · subst h
        simp [setItemA, lookupA]
      · simp [setItemA, lookupA, h, ih]

theorem lookupA_setItemA_ne {α β : Type} [DecidableEq α] (d : List (α × β)) (k k1 : α) (v : β)
    (h : k1 ≠ k) : lookupA (setItemA d k v) k1 = lookupA d k1 := by
  induction d with
  | nil => simp [setItemA, lookupA, Ne.symm h]
  | cons p rest ih =>
      obtain ⟨k0, v0⟩ := p
      by_cases h0 : k0 = k
      · subst h0
        simp [setItemA, lookupA, Ne.symm h]
      · simp [setItemA, lookupA, h0, ih]

theorem lookupA_eq_none_of_not_mem {α β : Type} [DecidableEq α] (d : List (α × β)) (k : α)
    (h : k ∉ d.map Prod.fst) : lookupA d k = Option.none := by
  induction d with
  | nil => simp [lookupA]
  | cons p rest ih =>
      obtain ⟨k0, v0⟩ := p
      simp only [List.map_cons, List.mem_cons] at h
      push_neg at h
      simp [lookupA, Ne.symm h.1, ih h.2]

theorem mem_of_lookupA_eq_some {α β : Type} [DecidableEq α] (d : List (α × β)) (k : α) (v : β) :
    lookupA d k = some v → (k, v) ∈ d := by
  induction d with
  | nil => intro h; simp [lookupA] at h
  | cons p rest ih =>
      obtain ⟨k0, v0⟩ := p
      intro h
      by_cases h0 : k0 = k
      · subst h0
        simp [lookupA] at h
        subst h
        exact List.mem_cons_self _ _
      · simp only [lookupA, if_neg h0] at h
        exact List.mem_cons_of_mem _ (ih h)

theorem lookupA_of_mem_nodup {α β : Type} [DecidableEq α] (d : List (α × β)) (k : α) (v : β) :
    (d.map Prod.fst).Nodup → (k, v) ∈ d → lookupA d k = some v := by
  induction d with
  | nil => intro _ hm; simp at hm
  | cons p rest ih =>
      obtain ⟨k0, v0⟩ := p
      intro hnd hm
      simp only [List.map_cons, List.nodup_cons] at hnd
      rcases List.mem_cons.mp hm with h | h
      · cases h
        simp [lookupA]
      · have hk0 : k0 ≠ k := by
          intro hh
          subst hh
          exact hnd.1 (List.mem_map.mpr ⟨(k0, v), h, rfl⟩)
        simp only [lookupA, if_neg hk0]
        exact ih hnd.2 h

theorem lookupA_append_of_not_mem {α β : Type} [DecidableEq α] (d1 d2 : List (α × β)) (k : α)
    (h : k ∉ d1.map Prod.fst) : lookupA (d1 ++ d2) k = lookupA d2 k := by
  induction d1 with
  | nil => simp
  | cons p rest ih =>
      obtain ⟨k0, v0⟩ := p
      simp only [List.map_cons, List.mem_cons] at h
      push_neg at h
      simp [lookupA, Ne.symm h.1, ih h.2]

theorem lookupA_eraseA_self_nodup {α β : Type} [DecidableEq α] (d : List (α × β)) (k : α)
    (hnd : (d.map Prod.fst).Nodup) : lookupA (eraseA d k) k = Option.none := by
  induction d with
  | nil => simp [eraseA, lookupA]
  | cons p rest ih =>
      obtain ⟨k0, v0⟩ := p
      simp only [List.map_cons, List.nodup_cons] at hnd
      by_cases h0 : k0 = k
      · subst h0
        simp only [eraseA, if_pos rfl]
        exact lookupA_eq_none_of_not_mem rest k0 hnd.1
      · simp [eraseA, lookupA, h0, ih hnd.2]

theorem lookupA_eraseA_of_none {α β : Type} [DecidableEq α] (d : List (α × β)) (k k1 : α)
    (h : lookupA d k1 = Option.none) : lookupA (eraseA d k) k1 = Option.none := by
  induction d with
  | nil => simp [eraseA, lookupA]
  | cons p rest ih =>
      obtain ⟨k0, v0⟩ := p
      by_cases h1 : k0 = k1
      · subst h1
        simp [lookupA] at h
      · simp only [lookupA, if_neg h1] at h
        by_cases h0 : k0 = k
        · simp [eraseA, h0, h]
        · simp [eraseA, lookupA, h0, h1, ih h]

theorem keys_eraseA_subset {α β : Type} [DecidableEq α] (d : List (α × β)) (k : α) :
    ((eraseA d k).map Prod.fst) ⊆ d.map Prod.fst := by
  induction d with
  | nil => simp [eraseA]
  | cons p rest ih =>
      obtain ⟨k0, v0⟩ := p
      by_cases h0 : k0 = k
      · simp only [eraseA, if_pos h0, List.map_cons]
        exact fun x hx => List.mem_cons_of_mem _ hx
      · simp only [eraseA, if_neg h0, List.map_cons]
        exact List.cons_subset_cons _ ih

theorem keys_eraseA_nodup {α β : Type} [DecidableEq α] (d : List (α × β)) (k : α)
    (hnd : (d.map Prod.fst).Nodup) : ((eraseA d k).map Prod.fst).Nodup := by
  induction d with
  | nil => simp [eraseA]
  | cons p rest ih =>
      obtain ⟨k0, v0⟩ := p
      simp only [List.map_cons, List.nodup_cons] at hnd
      by_cases h0 : k0 = k
      · simp only [eraseA, if_pos h0]
        exact hnd.2
      · simp only [eraseA, if_neg h0, List.map_cons, List.nodup_cons]
        exact ⟨fun hm => hnd.1 (keys_eraseA_subset rest k hm), ih hnd.2⟩

theorem mem_setItemA {α β : Type} [DecidableEq α] (d : List (α × β)) (k : α) (v : β) (x : α × β) :
    x ∈ setItemA d k v → x = (k, v) ∨ x ∈ d := by
  induction d with
  | nil =>
      intro h
      simp [setItemA] at h
      exact Or.inl h
  | cons p rest ih =>
      obtain ⟨k0, v0⟩ := p
      intro h
      by_cases h0 : k0 = k
      · subst h0
        simp [setItemA] at h
        rcases h with h | h
        · exact Or.inl h
        · exact Or.inr (List.mem_cons_of_mem _ h)
      · simp only [setItemA, if_neg h0, List.mem_cons] at h
        rcases h with h | h
        · exact Or.inr (List.mem_cons.mpr (Or.inl h))
        · rcases ih h with h1 | h1
          · exact Or.inl h1
          · exact Or.inr (List.mem_cons_of_mem _ h1)

/-! ### Merge lemmas for the staging operations -/

theorem mergeEntry_of_not_mem (entries : List (Nat × Columns)) (pk : Nat) (kv : Columns)
    (h : ∀ e ∈ entries, e.1 ≠ pk) : mergeEntry entries pk kv = entries ++ [(pk, kv)] := by
  induction entries with
  | nil => simp [mergeEntry]
  | cons e rest ih =>
      obtain ⟨pk0, cu⟩ := e
      have h0 : pk0 ≠ pk := h (pk0, cu) (List.mem_cons_self _ _)
      simp only [mergeEntry, if_neg h0, List.cons_append]
      rw [ih (fun e he => h e (List.mem_cons_of_mem _ he))]

theorem mergeEntry_append (entries : List (Nat × Columns)) (pk : Nat) (kv1 kv2 : Columns)
    (h : ∀ e ∈ entries, e.1 ≠ pk) :
    mergeEntry (entries ++ [(pk, kv1)]) pk kv2 = entries ++ [(pk, dictUpdate kv1 kv2)] := by
  induction entries with
  | nil => simp [mergeEntry]
  | cons e rest ih =>
      obtain ⟨pk0, cu⟩ := e
      have h0 : pk0 ≠ pk := h (pk0, cu) (List.mem_cons_self _ _)
      simp only [List.cons_append, mergeEntry, if_neg h0]
      exact congrArg (List.cons (pk0, cu)) (ih (fun e he => h e (List.mem_cons_of_mem _ he)))

theorem keys_mergeEntry_mem (entries : List (Nat × Columns)) (pk : Nat) (kv : Columns)
    (h : pk ∈ entries.map Prod.fst) :
    (mergeEntry entries pk kv).map Prod.fst = entries.map Prod.fst := by
  induction entries with
  | nil => simp at h
  | cons e rest ih =>
      obtain ⟨pk0, cu⟩ := e
      by_cases h0 : pk0 = pk
      · simp [mergeEntry, h0]
      · simp only [List.map_cons, List.mem_cons] at h
        rcases h with h | h
        · exact absurd h.symm h0
        · simp [mergeEntry, h0, ih h]

theorem keys_mergeEntry_not_mem (entries : List (Nat × Columns)) (pk : Nat) (kv : Columns)
    (h : pk ∉ entries.map Prod.fst) :
    (mergeEntry entries pk kv).map Prod.fst = entries.map Prod.fst ++ [pk] := by
  induction entries with
  | nil => simp [mergeEntry]
  | cons e rest ih =>
      obtain ⟨pk0, cu⟩ := e
      simp only [List.map_cons, List.mem_cons] at h
      push_neg at h
      simp [mergeEntry, Ne.symm h.1, ih h.2]

theorem lookupA_dictUpdate (d upd : List (String × Value))
    (h : (upd.map Prod.fst).Nodup) (k : String) :
    lookupA (dictUpdate d upd) k = orO (lookupA upd k) (lookupA d k) := by
  induction upd generalizing d with
  | nil => simp [dictUpdate, lookupA, orO]
  | cons p rest ih =>
      obtain ⟨k0, v0⟩ := p
      simp only [List.map_cons, List.nodup_cons] at h
      have step : dictUpdate d ((k0, v0) :: rest) = dictUpdate (setItemA d k0 v0) rest := rfl
      rw [step, ih (setItemA d k0 v0) h.2]
      by_cases hk : k0 = k
      · subst hk
        rw [lookupA_eq_none_of_not_mem rest k0 h.1]
        simp [lookupA, orO, lookupA_setItemA_self]
      · simp [lookupA, hk, lookupA_setItemA_ne d k0 k v0 (Ne.symm hk)]

/-- The staged pending updates for one (model, pk) pair, in order. -/
def pendingFor (b : AdapterStaging) (model pk : Nat) : List Columns :=
  (((lookupA b.update_mapping model).getD []).filter (fun e => e.1 == pk)).map Prod.snd

/-- The data-model invariant claimed for the staging buffer: at most one
pending entry per (model, pk) pair. -/
def pendingKeysNodup (b : AdapterStaging) : Prop :=
  ∀ me ∈ b.update_mapping, ((me.2.map Prod.fst).Nodup)

/-- A fresh staging buffer (`AdapterStaging.__init__`). -/
def initStaging : AdapterStaging := {}

/-! ### Claim C2 -/

def rowOld : Row := [("name", Value.str "old")]

def storeC2 : Store := [((0, 1), rowOld)]

def bufC2 : AdapterStaging := { update_mapping := [(0, [(1, [("name", Value.str "new")])])] }

/-- C2: the claim says a staged column value that differs from the row's
current value is written onto the row, the row is persisted between the
update hooks and the row counts once.  The code instead raises
`NameError` at line 59 (`if key not in EXEMPTED_COLUMNS:` references an
unbound bare name) as soon as any staged value differs, so no update can
ever be applied: at the failing input (row `name = "old"`, staged
`name = "new"`) `commit()` raises instead of returning a count. -/
theorem C2_commit_raises_NameError :
    errOf (commit bufC2 storeC2) = some (Err.nameErr "EXEMPTED_COLUMNS")
    ∧ resultCount (commit bufC2 storeC2) = Option.none
    ∧ resultStore (commit bufC2 storeC2) = Option.none := by
  exact ⟨rfl, rfl, rfl⟩

/-! ### Claim C9 -/

/-- C9 (amended): `columnKeyFromHeader` strips one trailing `*`, then
returns the key of the column whose header matches the stripped name
exactly (the first such column; unique when headers are distinct), and
fails with `ValueError` -- not `LookupError` -- when no header matches. -/
theorem C9_header_key_amended (cols : List (String × Column)) (hn : String) :
    (∀ k, (k, stripHeader hn) ∈ cols.map (fun kc => (kc.1, kc.2.header)) →
        (cols.map (fun kc => kc.2.header)).Nodup →
        _get_header_key cols hn = Except.ok k)
    ∧ ((∀ hd ∈ cols.map (fun kc => kc.2.header), hd ≠ stripHeader hn) →
        _get_header_key cols hn = Except.error (Err.valueErr "Header is not defined in table")) := by
  constructor
  · intro k hmem hnd
    induction cols with
    | nil => simp at hmem
    | cons kc0 rest ih =>
        obtain ⟨k0, c0⟩ := kc0
        simp only [List.map_cons, List.nodup_cons] at hnd
        by_cases hh : c0.header = stripHeader hn
        · have hfind : _get_header_key ((k0, c0) :: rest) hn = Except.ok k0 := by
            simp [_get_header_key, List.find?_cons, hh]
          rw [hfind]
          simp only [List.map_cons, List.mem_cons] at hmem
          rcases hmem with hmem | hmem
          · injection hmem with h1 h2
            rw [h1]
          · exfalso
            rcases List.mem_map.mp hmem with ⟨kc, hkc, hkceq⟩
            injection hkceq with h1 h2
            exact hnd.1 (List.mem_map.mpr ⟨kc, hkc, by rw [h2, hh]⟩)
        · have hstep : _get_header_key ((k0, c0) :: rest) hn = _get_header_key rest hn := by
            simp [_get_header_key, List.find?_cons, hh]
          rw [hstep]
          simp only [List.map_cons, List.mem_cons] at hmem
          rcases hmem with hmem | hmem
          · injection hmem with h1 h2
            exact absurd h2.symm hh
          · exact ih hmem hnd.2
  · intro hnone
    have hfind : cols.find? (fun kc => kc.2.header = stripHeader hn) = Option.none := by
      apply List.find?_eq_none.mpr
      intro kc hkc
      simpa using hnone kc.2.header (List.mem_map.mpr ⟨kc, hkc, rfl⟩)
    simp [_get_header_key, hfind]

def colsC9 : List (String × Column) :=
  [("id", { header := "DBID" }), ("student_id", { header := "Student ID" })]

theorem C9_header_key_amended_witness :
    _get_header_key colsC9 "Student ID*" = Except.ok "student_id"
    ∧ _get_header_key colsC9 "Nope" = Except.error (Err.valueErr "Header is not defined in table") := by
  refine ⟨(C9_header_key_amended colsC9 "Student ID*").1 "student_id" ?_ ?_,
          (C9_header_key_amended colsC9 "Nope").2 ?_⟩
  · decide
  · decide
  · decide

/-- C9 counterexample: on an unmatched header the code raises
`ValueError('Header is not defined in table')`, which is not a
`LookupError` (in Python, `ValueError` is not a subclass of
`LookupError`), contradicting the claimed failure mode. -/
theorem C9_counterexample :
    _get_header_key colsC9 "Nope" = Except.error (Err.valueErr "Header is not defined in table")
    ∧ Err.isLookupErr (Err.valueErr "Header is not defined in table") = false := by
  exact ⟨rfl, rfl⟩

/-! ### Claim C5 -/

def bufC5 : AdapterStaging := delete (add initStaging 0 1 [("a", Value.int 1)]) 0 1

/-- C5 counterexample: staging `add(model, 1, a=1)` and then
`delete(model, 1)` leaves two PendingRowUpdate entries for the pair
(model 0, pk 1), because `delete` always appends and never merges --
refuting the claimed at-most-one invariant for sequences that contain
`delete()`. -/
theorem C5_counterexample :
    lookupA bufC5.update_mapping 0
      = some [(1, [("a", Value.int 1)]), (1, [("delete_tag", Value.str "X")])]
    ∧ ¬ pendingKeysNodup bufC5 := by
  constructor
  · rfl
  · unfold pendingKeysNodup
    decide

/-- C5 (amended): `add()` alone preserves the at-most-one-entry-per-pair
invariant (it merges into the first matching entry or appends a fresh
pk); the invariant can only be broken by `delete()`, which always
appends a `{delete_tag: "X"}` entry even when the pair already has one. -/
theorem C5_add_preserves_at_most_one (b : AdapterStaging) (model pk : Nat) (kv : Columns)
    (h : pendingKeysNodup b) : pendingKeysNodup (add b model pk kv) := by
  intro me hme
  cases hl : lookupA b.update_mapping model with
  | none =>
      have hmap : (add b model pk kv).update_mapping
          = setItemA b.update_mapping model [(pk, kv)] := by
        simp [add, hl]
      rw [hmap] at hme
      rcases mem_setItemA _ _ _ _ hme with h1 | h1
      · rw [h1]
        simp
      · exact h me h1
  | some entries =>
      have hmap : (add b model pk kv).update_mapping
          = setItemA b.update_mapping model (mergeEntry entries pk kv) := by
        simp [add, hl]
      rw [hmap] at hme
      rcases mem_setItemA _ _ _ _ hme with h1 | h1
      · have hent : (model, entries) ∈ b.update_mapping :=
          mem_of_lookupA_eq_some _ _ _ hl
        have hnd : (entries.map Prod.fst).Nodup := h _ hent
        rw [h1]
        by_cases hpk : pk ∈ entries.map Prod.fst
        · rw [keys_mergeEntry_mem _ _ kv hpk]
          exact hnd
        · rw [keys_mergeEntry_not_mem _ _ kv hpk]
          refine List.Nodup.append hnd (List.nodup_singleton pk) ?_
          intro a ha hb
          simp only [List.mem_singleton] at hb
          exact hpk (hb ▸ ha)
      · exact h me h1

theorem C5_add_preserves_at_most_one_witness :
    pendingKeysNodup (add initStaging 0 1 [("a", Value.int 1)]) := by
  apply C5_add_preserves_at_most_one
  unfold pendingKeysNodup
  decide

/-! ### Claim C4 -/

/-- C4: two `add()` calls for the same (model, pk) pair, starting from a
buffer with no pending entry for that pair, leave exactly one
PendingRowUpdate whose column map is the union of both calls' maps with
the second call winning on common keys. -/
theorem C4_add_add_merges (b : AdapterStaging) (model pk : Nat) (kv1 kv2 : Columns)
    (hfresh : pendingFor b model pk = [])
    (hnd : (kv2.map Prod.fst).Nodup) :
    pendingFor (add (add b model pk kv1) model pk kv2) model pk = [dictUpdate kv1 kv2]
    ∧ lookupA (dictUpdate kv1 kv2) = fun k => orO (lookupA kv2 k) (lookupA kv1 k) := by
  constructor
  · cases hl : lookupA b.update_mapping model with
    | none =>
        have h1 : (add b model pk kv1).update_mapping
            = setItemA b.update_mapping model [(pk, kv1)] := by
          simp [add, hl]
        generalize hA : add b model pk kv1 = A at h1
        have h2 : lookupA A.update_mapping model = some [(pk, kv1)] := by
          rw [h1]
          exact lookupA_setItemA_self _ _ _
        have h3 : (add A model pk kv2).update_mapping
            = setItemA A.update_mapping model (mergeEntry [(pk, kv1)] pk kv2) := by
          simp [add, h2]
        have h4 : mergeEntry [(pk, kv1)] pk kv2 = [(pk, dictUpdate kv1 kv2)] := by
          simp [mergeEntry]
        unfold pendingFor
        rw [h3, h4, lookupA_setItemA_self]
        simp
    | some entries =>
        have hfe : entries.filter (fun e => e.1 == pk) = [] := by
          unfold pendingFor at hfresh
          rw [hl] at hfresh
          simp only [Option.getD_some] at hfresh
          exact List.map_eq_nil_iff.mp hfresh
        have hno : ∀ e ∈ entries, e.1 ≠ pk := by
          intro e he heq
          have hmem : e ∈ entries.filter (fun e => e.1 == pk) :=
            List.mem_filter.mpr ⟨he, by simp [heq]⟩
          rw [hfe] at hmem
          simp at hmem
        have hm1 : mergeEntry entries pk kv1 = entries ++ [(pk, kv1)] :=
          mergeEntry_of_not_mem entries pk kv1 hno
        have h1 : (add b model pk kv1).update_mapping
            = setItemA b.update_mapping model (entries ++ [(pk, kv1)]) := by
          simp [add, hl, hm1]
        generalize hA : add b model pk kv1 = A at h1
        have h2 : lookupA A.update_mapping model = some (entries ++ [(pk, kv1)]) := by
          rw [h1]
          exact lookupA_setItemA_self _ _ _
        have h3 : (add A model pk kv2).update_mapping
            = setItemA A.update_mapping model (mergeEntry (entries ++ [(pk, kv1)]) pk kv2) := by
          simp [add, h2]
        have h4 : mergeEntry (entries ++ [(pk, kv1)]) pk kv2
            = entries ++ [(pk, dictUpdate kv1 kv2)] :=
          mergeEntry_append entries pk kv1 kv2 hno
        unfold pendingFor
        rw [h3, h4, lookupA_setItemA_self]
        simp only [Option.getD_some, List.filter_append, hfe]
        simp
  · funext k
    exact lookupA_dictUpdate kv1 kv2 hnd k

def kv1C4 : Columns := [("a", Value.int 1), ("b", Value.int 2)]

def kv2C4 : Columns := [("b", Value.int 3), ("c", Value.int 4)]

theorem C4_add_add_merges_witness :
    pendingFor (add (add initStaging 0 1 kv1C4) 0 1 kv2C4) 0 1 = [dictUpdate kv1C4 kv2C4]
    ∧ lookupA (dictUpdate kv1C4 kv2C4) = fun k => orO (lookupA kv2C4 k) (lookupA kv1C4 k) :=
  C4_add_add_merges initStaging 0 1 kv1C4 kv2C4 (by decide) (by decide)

/-! ### Claim C8 -/

/-- C8 (amended): `add_commit_runnable` appends the hook to the list for
(phase, pk); it initialises the per-row data slot to the empty payload on
the first registration for that (phase, pk) pair, so a subsequent
registration in the same phase leaves the data untouched, but the first
registration of the same pk in a different phase resets the pk's
already-accumulated data to the empty payload. -/
theorem C8_addHook_amended (b : AdapterStaging) (phase : String) (pk : Nat) (f : Hook) :
    lookupA (add_commit_runnable b phase pk f).commit_lambdas (phase, pk)
      = some (hooksFor b phase pk ++ [f])
    ∧ (add_commit_runnable b phase pk f).commit_lambdas_data
      = (match lookupA b.commit_lambdas (phase, pk) with
         | Option.none => setItemA b.commit_lambdas_data pk []
         | some _ => b.commit_lambdas_data) := by
  cases hl : lookupA b.commit_lambdas (phase, pk) with
  | none =>
      refine ⟨?_, ?_⟩
      · simp [add_commit_runnable, hl, hooksFor, lookupA_setItemA_self]
      · simp [add_commit_runnable, hl]
  | some hooks =>
      refine ⟨?_, ?_⟩
      · simp [add_commit_runnable, hl, hooksFor, lookupA_setItemA_self]
      · simp [add_commit_runnable, hl]

def hkC8 : Hook := fun _ _ => Except.ok (some [("a", Value.int 1)])

def hgC8 : Hook := fun d _ => Except.ok (some d)

def bufC8 : AdapterStaging :=
  delete (add_commit_runnable initStaging PRECOMMIT_DELETE_LAMBDA 1 hkC8) 0 1

def storeC8 : Store := [((0, 1), [("name", Value.str "a")])]

/-- C8 counterexample: after a commit in which a pre-delete hook set pk 1's
hook data to `{a: 1}`, registering a hook for pk 1 in a phase that pk had
no hook in yet (`postcommit_delete`) resets the accumulated data to the
empty payload -- the claim says a subsequent registration for the same row
id, in any phase, leaves the accumulated data unchanged. -/
theorem C8_counterexample :
    resultData (commit bufC8 storeC8) = some [(1, [("a", Value.int 1)])]
    ∧ (match commit bufC8 storeC8 with
       | Except.ok st =>
           lookupA (add_commit_runnable st.b POSTCOMMIT_DELETE_LAMBDA 1 hgC8).commit_lambdas_data 1
       | Except.error _ => Option.none) = some []
    ∧ ([("a", Value.int 1)] : HookData) ≠ [] := by
  exact ⟨rfl, rfl, by decide⟩

/-! ### Claim C7 -/

def h7a : Hook := fun _ _ => Except.ok (some [("a", Value.int 1)])

def h7b : Hook := fun _ _ => Except.ok (some [])

def bufC7 : AdapterStaging :=
  { commit_lambdas := [((PRECOMMIT_UPDATE_LAMBDA, 1), [h7a, h7b])],
    commit_lambdas_data := [(1, [])] }

def stC7 : CState := { s := [], b := bufC7, ev := [], n := 0 }

/-- C7 counterexample: the second hook returns the value `{}` (an empty
payload, which is a value, not `nothing`), yet the stored payload for pk 1
remains the first hook's `{a: 1}` -- because line 155 keeps a returned
value only when it is truthy.  Both hooks do run, in registration order. -/
theorem C7_counterexample :
    (match _run_lambdas PRECOMMIT_UPDATE_LAMBDA 1 [] stC7 with
     | Except.ok st => some (lookupA st.b.commit_lambdas_data 1, st.ev)
     | Except.error _ => Option.none)
      = some (some [("a", Value.int 1)],
              [Event.hook PRECOMMIT_UPDATE_LAMBDA 1 0, Event.hook PRECOMMIT_UPDATE_LAMBDA 1 1])
    ∧ ([("a", Value.int 1)] : HookData) ≠ [] := by
  exact ⟨rfl, by decide⟩

/-- Embeds a never-raising hook. -/
def liftPure (f : HookData → Row → Option HookData) : Hook :=
  fun d r => Except.ok (f d r)

/-- The payload update a single hook performs (line 155): a truthy return
value replaces the payload, a falsy one (None or `{}`) keeps it. -/
def hookFoldStep (row : Row) (d : HookData) (f : HookData → Row → Option HookData) : HookData :=
  match f d row with
  | some nd => if nd.isEmpty then d else nd
  | Option.none => d

theorem range_map_shift {α : Type} (g : Nat → α) (n idx : Nat) :
    (List.range (n + 1)).map (fun i => g (idx + i))
      = g idx :: (List.range n).map (fun i => g (idx + 1 + i)) := by
  rw [List.range_succ_eq_map, List.map_cons, List.map_map]
  refine congrArg₂ List.cons (congrArg g (Nat.add_zero idx)) ?_
  apply List.map_congr_left
  intro i hi
  exact congrArg g (by omega)

/-- The `commit_lambdas_data` value after one hook returned `r`
(lines 154-155). -/
def dataAfter (st : CState) (pk : Nat) (r : Option HookData) : List (Nat × HookData) :=
  match r with
  | some newData =>
      if pyTruthy (some newData) then setItemA st.b.commit_lambdas_data pk newData
      else st.b.commit_lambdas_data
  | Option.none => st.b.commit_lambdas_data

theorem runHooks_pure (phase : String) (pk : Nat) (row : Row)
    (fs : List (HookData → Row → Option HookData)) :
    ∀ (idx : Nat) (st : CState) (d0 : HookData),
      lookupA st.b.commit_lambdas_data pk = some d0 →
      ∃ st1, runHooks phase pk row (fs.map liftPure) idx st = Except.ok st1
        ∧ st1.ev = st.ev ++ (List.range fs.length).map (fun i => Event.hook phase pk (idx + i))
        ∧ lookupA st1.b.commit_lambdas_data pk = some (fs.foldl (hookFoldStep row) d0)
        ∧ st1.s = st.s ∧ st1.n = st.n
        ∧ st1.b.update_mapping = st.b.update_mapping
        ∧ st1.b.commit_lambdas = st.b.commit_lambdas := by
  induction fs with
  | nil =>
      intro idx st d0 hd
      exact ⟨st, rfl, by simp, by simpa using hd, rfl, rfl, rfl, rfl⟩
  | cons f fs ih =>
      intro idx st d0 hd
      have hd1 : lookupA (dataAfter st pk (f d0 row)) pk = some (hookFoldStep row d0 f) := by
        cases hf : f d0 row with
        | none => simpa [dataAfter, hookFoldStep, hf] using hd
        | some nd =>
            by_cases hemp : nd.isEmpty
            · simpa [dataAfter, hookFoldStep, hf, pyTruthy, hemp] using hd
            · simp [dataAfter, hookFoldStep, hf, pyTruthy, hemp, lookupA_setItemA_self]
      obtain ⟨st2, hrun, hev, hdata, hs, hn, hu, hc⟩ :=
        ih (idx + 1)
          { st with b := { st.b with commit_lambdas_data := dataAfter st pk (f d0 row) },
                    ev := st.ev ++ [Event.hook phase pk idx] }
          (hookFoldStep row d0 f) hd1
      rw [List.map_cons, runHooks, hd]
      refine ⟨st2, ?_, ?_, ?_, ?_, ?_, ?_, ?_⟩
      · exact hrun
      · rw [hev]
        simp only [List.length_cons]
        rw [range_map_shift (fun i => Event.hook phase pk i) fs.length idx]
        simp [List.append_assoc]
      · rw [hdata]
        simp [List.foldl_cons]
      · exact hs
      · exact hn
      · exact hu
      · exact hc

/-- C7 (amended): hooks for a phase and row id run in registration order,
each receiving the accumulated payload and the row; a hook's return value
replaces the stored payload only when it is truthy (a falsy return --
`None` or an empty payload -- keeps the previous payload), so the final
payload is the left fold of that rule over the registered hooks. -/
theorem C7_run_lambdas_amended (phase : String) (pk : Nat) (row : Row)
    (fs : List (HookData → Row → Option HookData)) (st : CState) (d0 : HookData)
    (hreg : lookupA st.b.commit_lambdas (phase, pk) = some (fs.map liftPure))
    (hd : lookupA st.b.commit_lambdas_data pk = some d0) :
    ∃ st1, _run_lambdas phase pk row st = Except.ok st1
      ∧ st1.ev = st.ev ++ (List.range fs.length).map (fun i => Event.hook phase pk i)
      ∧ lookupA st1.b.commit_lambdas_data pk = some (fs.foldl (hookFoldStep row) d0) := by
  obtain ⟨st1, hrun, hev, hdata, _⟩ := runHooks_pure phase pk row fs 0 st d0 hd
  refine ⟨st1, ?_, ?_, hdata⟩
  · rw [_run_lambdas, hreg]
    exact hrun
  · rw [hev]
    refine congrArg (st.ev ++ ·) ?_
    apply List.map_congr_left
    intro i hi
    exact congrArg (Event.hook phase pk) (Nat.zero_add i)

def fsC7 : List (HookData → Row → Option HookData) := [fun _ _ => some [("k", Value.int 2)]]

def bufC7w : AdapterStaging :=
  { commit_lambdas := [((PRECOMMIT_DELETE_LAMBDA, 1), fsC7.map liftPure)],
    commit_lambdas_data := [(1, [])] }

def stC7w : CState := { s := [], b := bufC7w, ev := [], n := 0 }

theorem C7_run_lambdas_amended_witness :
    ∃ st1, _run_lambdas PRECOMMIT_DELETE_LAMBDA 1 [] stC7w = Except.ok st1
      ∧ st1.ev = stC7w.ev ++ (List.range fsC7.length).map
          (fun i => Event.hook PRECOMMIT_DELETE_LAMBDA 1 i)
      ∧ lookupA st1.b.commit_lambdas_data 1 = some (fsC7.foldl (hookFoldStep []) []) :=
  C7_run_lambdas_amended PRECOMMIT_DELETE_LAMBDA 1 [] fsC7 stC7w [] rfl rfl

/-! ### Claim C10 -/

/-- The state a commit step ends in, whether it returned or raised. -/
def stateOf : CommitM → CState
  | Except.ok st => st
  | Except.error (_, st) => st

/-- Same, for the column loop (which also returns `columns_updated`). -/
def stateOfC : Except (Err × CState) (CState × Nat) → CState
  | Except.ok (st, _) => st
  | Except.error (_, st) => st

/-- The staged state a commit never touches: the update mapping and the
registered hooks. -/
def framePair (st0 st1 : CState) : Prop :=
  st1.b.update_mapping = st0.b.update_mapping
  ∧ st1.b.commit_lambdas = st0.b.commit_lambdas

theorem framePair_refl (st : CState) : framePair st st := ⟨rfl, rfl⟩

theorem framePair_trans {st0 st1 st2 : CState}
    (h1 : framePair st0 st1) (h2 : framePair st1 st2) : framePair st0 st2 :=
  ⟨h2.1.trans h1.1, h2.2.trans h1.2⟩

theorem frame_runHooks (phase : String) (pk : Nat) (row : Row) :
    ∀ (hooks : List Hook) (idx : Nat) (st : CState),
      framePair st (stateOf (runHooks phase pk row hooks idx st)) := by
  intro hooks
  induction hooks with
  | nil => intro idx st; exact framePair_refl st
  | cons h rest ih =>
      intro idx st
      rw [runHooks]
      split
      · exact framePair_refl st
      · split
        · exact framePair_refl st
        · refine framePair_trans ?_ (ih (idx + 1) _)
          exact ⟨rfl, rfl⟩

theorem frame_run_lambdas (phase : String) (pk : Nat) (row : Row) (st : CState) :
    framePair st (stateOf (_run_lambdas phase pk row st)) := by
  rw [_run_lambdas]
  split
  · exact framePair_refl st
  · exact frame_runHooks phase pk row _ 0 st

theorem deleteCheck_error_state (cu : Columns) (key : String) (st : CState)
    (e : Err × CState) (h : deleteCheck cu key st = Except.error e) : e.2 = st := by
  unfold deleteCheck at h
  by_cases hk : key = "delete_tag"
  · rw [if_pos hk] at h
    cases hlk : lookupA cu key with
    | none =>
        rw [hlk] at h
        injection h with h1
        rw [← h1]
    | some cuv =>
        rw [hlk] at h
        simp at h
  · rw [if_neg hk] at h
    simp at h

theorem frame_commitColumns (model pk : Nat) (cu : Columns) (row : Row) :
    ∀ (remaining : List (String × Value)) (c : Nat) (st : CState),
      framePair st (stateOfC (commitColumns model pk cu row remaining c st)) := by
  intro remaining
  induction remaining with
  | nil => intro c st; exact framePair_refl st
  | cons kv rest ih =>
      obtain ⟨key, v⟩ := kv
      intro c st
      rw [commitColumns]
      split
      · -- deleteCheck raised; the carried state is st
        next e heq =>
          have he := deleteCheck_error_state cu key st e heq
          obtain ⟨e1, e2⟩ := e
          simp only [stateOfC]
          rw [show e2 = st from he]
          exact framePair_refl st
      · -- delete branch
        split
        · next e heq =>
            have h1 := frame_run_lambdas PRECOMMIT_DELETE_LAMBDA pk row st
            rw [heq] at h1
            exact h1
        · next st1 heq =>
            have h1 := frame_run_lambdas PRECOMMIT_DELETE_LAMBDA pk row st
            rw [heq] at h1
            split
            · next e heq2 =>
                have h2 := frame_run_lambdas POSTCOMMIT_DELETE_LAMBDA pk row
                  { st1 with s := eraseA st1.s (model, pk),
                             ev := st1.ev ++ [Event.deleted model pk] }
                rw [heq2] at h2
                refine framePair_trans h1 (framePair_trans ?_ h2)
                exact ⟨rfl, rfl⟩
            · next st3 heq2 =>
                have h2 := frame_run_lambdas POSTCOMMIT_DELETE_LAMBDA pk row
                  { st1 with s := eraseA st1.s (model, pk),
                             ev := st1.ev ++ [Event.deleted model pk] }
                rw [heq2] at h2
                refine framePair_trans h1 (framePair_trans ?_
                  (framePair_trans h2 (framePair_trans ?_ (ih c _))))
                · exact ⟨rfl, rfl⟩
                · exact ⟨rfl, rfl⟩
      · -- elif branch
        split
        · exact framePair_refl st
        · split
          · exact framePair_refl st
          · split
            · exact ih c st
            · exact framePair_refl st

theorem frame_tryProcessRow (model pk : Nat) (cu : Columns) (st : CState) :
    framePair st (stateOf (tryProcessRow model pk cu st)) := by
  rw [tryProcessRow]
  split
  · exact framePair_refl st
  · next row heq =>
      split
      · next e heq2 =>
          have h1 := frame_commitColumns model pk cu row cu 0 st
          rw [heq2] at h1
          exact h1
      · next st1 c heq2 =>
          have h1 := frame_commitColumns model pk cu row cu 0 st
          rw [heq2] at h1
          split
          · split
            · next e heq3 =>
                have h2 := frame_run_lambdas PRECOMMIT_UPDATE_LAMBDA pk row st1
                rw [heq3] at h2
                exact framePair_trans h1 h2
            · next st2 heq3 =>
                have h2 := frame_run_lambdas PRECOMMIT_UPDATE_LAMBDA pk row st1
                rw [heq3] at h2
                split
                · next e heq4 =>
                    have h3 := frame_run_lambdas POSTCOMMIT_UPDATE_LAMBDA pk row
                      { st2 with s := setItemA st2.s (model, pk) row,
                                 ev := st2.ev ++ [Event.saved model pk] }
                    rw [heq4] at h3
                    refine framePair_trans h1 (framePair_trans h2 (framePair_trans ?_ h3))
                    exact ⟨rfl, rfl⟩
                · next st4 heq4 =>
                    have h3 := frame_run_lambdas POSTCOMMIT_UPDATE_LAMBDA pk row
                      { st2 with s := setItemA st2.s (model, pk) row,
                                 ev := st2.ev ++ [Event.saved model pk] }
                    rw [heq4] at h3
                    refine framePair_trans h1 (framePair_trans h2 (framePair_trans ?_
                      (framePair_trans h3 ?_)))
                    · exact ⟨rfl, rfl⟩
                    · exact ⟨rfl, rfl⟩
          · exact h1

theorem stateOf_processRow (model pk : Nat) (cu : Columns) (st : CState) :
    stateOf (processRow model pk cu st) = stateOf (tryProcessRow model pk cu st) := by
  rw [processRow]
  cases htr : tryProcessRow model pk cu st with
  | ok st1 => rfl
  | error e =>
      obtain ⟨e1, st1⟩ := e
      cases e1 <;> rfl

theorem frame_processRow (model pk : Nat) (cu : Columns) (st : CState) :
    framePair st (stateOf (processRow model pk cu st)) := by
  rw [stateOf_processRow]
  exact frame_tryProcessRow model pk cu st

theorem frame_commitEntries (model : Nat) :
    ∀ (entries : List (Nat × Columns)) (st : CState),
      framePair st (stateOf (commitEntries model entries st)) := by
  intro entries
  induction entries with
  | nil => intro st; exact framePair_refl st
  | cons e rest ih =>
      obtain ⟨pk, cu⟩ := e
      intro st
      rw [commitEntries]
      cases hp : processRow model pk cu st with
      | error err =>
          have h1 := frame_processRow model pk cu st
          rw [hp] at h1
          exact h1
      | ok st1 =>
          have h1 := frame_processRow model pk cu st
          rw [hp] at h1
          exact framePair_trans h1 (ih st1)

theorem frame_commitModels :
    ∀ (models : List (Nat × List (Nat × Columns))) (st : CState),
      framePair st (stateOf (commitModels models st)) := by
  intro models
  induction models with
  | nil => intro st; exact framePair_refl st
  | cons m rest ih =>
      obtain ⟨model, entries⟩ := m
      intro st
      rw [commitModels]
      cases hce : commitEntries model entries st with
      | error err =>
          have h1 := frame_commitEntries model entries st
          rw [hce] at h1
          exact h1
      | ok st1 =>
          have h1 := frame_commitEntries model entries st
          rw [hce] at h1
          exact framePair_trans h1 (ih st1)

/-- C10 (amended): `commit()` never consumes or clears the staged state --
whether it returns or raises, the buffer's update mapping and registered
hooks are exactly what they were before the call (only the per-row
hook-data payloads may differ, via hook return values).  A second call
therefore re-iterates the same staged entries, but it re-fires hooks only
for rows that still exist and qualify: after a successful staged delete,
the second call skips that row and fires none of its hooks. -/
theorem C10_commit_preserves_staged_state (b : AdapterStaging) (s : Store) :
    (stateOf (commit b s)).b.update_mapping = b.update_mapping
    ∧ (stateOf (commit b s)).b.commit_lambdas = b.commit_lambdas :=
  frame_commitModels b.update_mapping { s := s, b := b, ev := [], n := 0 }

def hC10 : Hook := fun d _ => Except.ok (some d)

def bufC10 : AdapterStaging :=
  { update_mapping := [(0, [(1, [("delete_tag", Value.str "X")])])],
    commit_lambdas := [((PRECOMMIT_DELETE_LAMBDA, 1), [hC10])],
    commit_lambdas_data := [(1, [])] }

def storeC10 : Store := [((0, 1), [("name", Value.str "a")])]

/-- C10 counterexample: the first commit fires the pre-delete hook and
deletes the row; the buffer still carries the same staged update mapping,
yet a second commit on the resulting state fires no hook at all and
modifies zero rows -- so a second `commit()` does not re-fire every hook
as the claim states. -/
theorem C10_counterexample :
    resultEvents (commit bufC10 storeC10)
      = some [Event.hook PRECOMMIT_DELETE_LAMBDA 1 0, Event.deleted 0 1]
    ∧ (match commit bufC10 storeC10 with
       | Except.ok st => some (st.b.update_mapping,
           resultEvents (commit st.b st.s), resultCount (commit st.b st.s))
       | Except.error _ => Option.none)
      = some (bufC10.update_mapping, some [], some 0) := by
  exact ⟨rfl, rfl⟩

/-! ### Claim C6 -/

theorem commitEntries_skip (model pk : Nat) (cu : Columns) (rest : List (Nat × Columns))
    (st : CState) (hmiss : lookupA st.s (model, pk) = Option.none) :
    commitEntries model ((pk, cu) :: rest) st = commitEntries model rest st := by
  have hp : processRow model pk cu st = Except.ok st := by
    rw [processRow, tryProcessRow, hmiss]
  rw [commitEntries, hp]

theorem commitEntries_abort (model pk : Nat) (cu : Columns) (rest : List (Nat × Columns))
    (st : CState) (e : Err) (st1 : CState)
    (htry : tryProcessRow model pk cu st = Except.error (e, st1))
    (hne : e ≠ Err.objectDoesNotExist) :
    commitEntries model ((pk, cu) :: rest) st = Except.error (e, st1) := by
  have hp : processRow model pk cu st = Except.error (e, st1) := by
    rw [processRow, htry]
    cases e with
    | objectDoesNotExist => exact absurd rfl hne
    | nameErr n => rfl
    | attributeErr n => rfl
    | keyErrData pk2 => rfl
    | keyErrCol k => rfl
    | valueErr m => rfl
    | lookupErr m => rfl
    | custom c => rfl
  rw [commitEntries, hp]

/-- C6: a pending update whose rowId is missing from the store is skipped
silently -- processing simply continues with the remaining pending updates
from an unchanged state, with no error, no events and no count -- while an
exception of any other class than ObjectDoesNotExist raised while
processing a row (store write failure, hook exception) propagates, aborts
the remaining pending updates, and surfaces from `commit()`. -/
theorem C6_missing_row_skipped_others_propagate :
    (∀ (model pk : Nat) (cu : Columns) (rest : List (Nat × Columns)) (st : CState),
        lookupA st.s (model, pk) = Option.none →
        commitEntries model ((pk, cu) :: rest) st = commitEntries model rest st)
    ∧ (∀ (model pk : Nat) (cu : Columns) (rest : List (Nat × Columns)) (st : CState)
        (e : Err) (st1 : CState),
        tryProcessRow model pk cu st = Except.error (e, st1) →
        e ≠ Err.objectDoesNotExist →
        commitEntries model ((pk, cu) :: rest) st = Except.error (e, st1))
    ∧ (∀ (b : AdapterStaging) (s : Store) (model pk : Nat) (cu : Columns)
        (rest : List (Nat × Columns)) (more : List (Nat × List (Nat × Columns)))
        (e : Err) (st1 : CState),
        b.update_mapping = (model, (pk, cu) :: rest) :: more →
        tryProcessRow model pk cu { s := s, b := b, ev := [], n := 0 }
          = Except.error (e, st1) →
        e ≠ Err.objectDoesNotExist →
        commit b s = Except.error (e, st1)) := by
  refine ⟨?_, ?_, ?_⟩
  · intro model pk cu rest st hmiss
    exact commitEntries_skip model pk cu rest st hmiss
  · intro model pk cu rest st e st1 htry hne
    exact commitEntries_abort model pk cu rest st e st1 htry hne
  · intro b s model pk cu rest more e st1 hmap htry hne
    rw [commit, hmap, commitModels,
        commitEntries_abort model pk cu rest _ e st1 htry hne]

def raise7 : Hook := fun _ _ => Except.error (Err.custom 7)

def bufC6 : AdapterStaging :=
  { update_mapping := [(0, [(1, [("delete_tag", Value.str "X")])])],
    commit_lambdas := [((PRECOMMIT_DELETE_LAMBDA, 1), [raise7])],
    commit_lambdas_data := [(1, [])] }

def storeC6 : Store := [((0, 1), [("x", Value.int 0)])]

def stC6 : CState := { s := storeC6, b := bufC6, ev := [], n := 0 }

def stC6empty : CState := { s := [], b := initStaging, ev := [], n := 0 }

theorem C6_missing_row_skipped_others_propagate_witness :
    commitEntries 0 [(5, [("a", Value.int 1)])] stC6empty = commitEntries 0 [] stC6empty
    ∧ commitEntries 0 [(1, [("delete_tag", Value.str "X")])] stC6
        = Except.error (Err.custom 7, stC6)
    ∧ commit bufC6 storeC6 = Except.error (Err.custom 7, stC6) := by
  refine ⟨?_, ?_, ?_⟩
  · exact C6_missing_row_skipped_others_propagate.1 0 5 [("a", Value.int 1)] [] stC6empty
      (by decide)
  · exact C6_missing_row_skipped_others_propagate.2.1 0 1 [("delete_tag", Value.str "X")] []
      stC6 (Err.custom 7) stC6 rfl (by decide)
  · exact C6_missing_row_skipped_others_propagate.2.2 bufC6 storeC6 0 1
      [("delete_tag", Value.str "X")] [] [] (Err.custom 7) stC6 rfl rfl (by decide)

/-! ### Claim C1 -/

theorem run_lambdas_pure_hooksFor (phase : String) (pk : Nat) (row : Row)
    (fs : List (HookData → Row → Option HookData)) (st : CState) (d0 : HookData)
    (hreg : hooksFor st.b phase pk = List.map liftPure fs)
    (hd : lookupA st.b.commit_lambdas_data pk = some d0) :
    ∃ st1, _run_lambdas phase pk row st = Except.ok st1
      ∧ st1.ev = st.ev ++ (List.range fs.length).map (fun i => Event.hook phase pk i)
      ∧ lookupA st1.b.commit_lambdas_data pk = some (fs.foldl (hookFoldStep row) d0)
      ∧ st1.s = st.s ∧ st1.n = st.n
      ∧ st1.b.update_mapping = st.b.update_mapping
      ∧ st1.b.commit_lambdas = st.b.commit_lambdas := by
  unfold hooksFor at hreg
  cases hlk : lookupA st.b.commit_lambdas (phase, pk) with
  | none =>
      rw [hlk] at hreg
      simp only [Option.getD_none] at hreg
      have hfs : fs = [] := by
        cases fs with
        | nil => rfl
        | cons f fs => simp at hreg
      subst hfs
      refine ⟨st, ?_, by simp, by simpa using hd, rfl, rfl, rfl, rfl⟩
      rw [_run_lambdas, hlk]
  | some hooks =>
      rw [hlk] at hreg
      simp only [Option.getD_some] at hreg
      subst hreg
      obtain ⟨st1, hrun, hev, hdata, hs, hn, hu, hc⟩ := runHooks_pure phase pk row fs 0 st d0 hd
      refine ⟨st1, ?_, ?_, hdata, hs, hn, hu, hc⟩
      · rw [_run_lambdas, hlk]
        exact hrun
      · rw [hev]
        refine congrArg (st.ev ++ ·) ?_
        apply List.map_congr_left
        intro i hi
        exact congrArg (Event.hook phase pk) (Nat.zero_add i)

theorem commitColumns_skip_equal (model pk : Nat) (cu : Columns) (row : Row) :
    ∀ (cols rest : List (String × Value)) (c : Nat) (st : CState),
      (∀ kv ∈ cols, kv.1 ≠ "delete_tag"
          ∧ lookupA row kv.1 = some kv.2 ∧ lookupA cu kv.1 = some kv.2) →
      commitColumns model pk cu row (cols ++ rest) c st
        = commitColumns model pk cu row rest c st := by
  intro cols
  induction cols with
  | nil => intro rest c st _; rfl
  | cons kv cols ih =>
      intro rest c st h
      obtain ⟨k, v⟩ := kv
      obtain ⟨hdt, hrowk, hcuk⟩ := h (k, v) (List.mem_cons_self _ _)
      have hdc : deleteCheck cu k st = Except.ok false := by
        unfold deleteCheck
        rw [if_neg hdt]
      have hg : getattr row k = Except.ok v := by
        rw [getattr, hrowk]
      rw [List.cons_append, commitColumns]
      simp only [hdc, hg, hcuk, beq_self_eq_true, if_true]
      exact ih rest c st (fun kv hkv => h kv (List.mem_cons_of_mem _ hkv))

theorem tryProcessRow_delete_pure (model pk : Nat) (pre post : Columns) (row : Row)
    (fsPre fsPost : List (HookData → Row → Option HookData)) (d0 : HookData) (st0 : CState)
    (hrow : lookupA st0.s (model, pk) = some row)
    (hnd : (((pre ++ ("delete_tag", Value.str "X") :: post).map Prod.fst)).Nodup)
    (heq : ∀ kv ∈ pre ++ post, lookupA row kv.1 = some kv.2)
    (hpre : hooksFor st0.b PRECOMMIT_DELETE_LAMBDA pk = List.map liftPure fsPre)
    (hpost : hooksFor st0.b POSTCOMMIT_DELETE_LAMBDA pk = List.map liftPure fsPost)
    (hd : lookupA st0.b.commit_lambdas_data pk = some d0) :
    ∃ st4, tryProcessRow model pk (pre ++ ("delete_tag", Value.str "X") :: post) st0
        = Except.ok st4
      ∧ st4.s = eraseA st0.s (model, pk)
      ∧ st4.n = st0.n + 1
      ∧ st4.ev = st0.ev
          ++ ((List.range fsPre.length).map (fun i => Event.hook PRECOMMIT_DELETE_LAMBDA pk i)
              ++ Event.deleted model pk
                :: (List.range fsPost.length).map
                    (fun i => Event.hook POSTCOMMIT_DELETE_LAMBDA pk i)) := by
  set cu : Columns := pre ++ ("delete_tag", Value.str "X") :: post with hcu
  have hkeys : cu.map Prod.fst = pre.map Prod.fst ++ "delete_tag" :: post.map Prod.fst := by
    simp [hcu]
  have hndk := hnd
  rw [hkeys, List.nodup_append] at hndk
  have hdtpre : "delete_tag" ∉ pre.map Prod.fst := by
    intro hmem
    exact hndk.2.2 hmem (List.mem_cons_self _ _)
  have hdtpost : "delete_tag" ∉ post.map Prod.fst := by
    have := hndk.2.1
    rw [List.nodup_cons] at this
    exact this.1
  have hcuX : lookupA cu "delete_tag" = some (Value.str "X") := by
    rw [hcu, lookupA_append_of_not_mem pre _ _ hdtpre]
    simp [lookupA]
  have hmemcu : ∀ kv ∈ pre ++ post, lookupA cu kv.1 = some kv.2 := by
    intro kv hkv
    apply lookupA_of_mem_nodup cu kv.1 kv.2 hnd
    rw [hcu]
    rcases List.mem_append.mp hkv with h | h
    · exact List.mem_append.mpr (Or.inl h)
    · exact List.mem_append.mpr (Or.inr (List.mem_cons_of_mem _ h))
  have hskippre : ∀ kv ∈ pre, kv.1 ≠ "delete_tag"
      ∧ lookupA row kv.1 = some kv.2 ∧ lookupA cu kv.1 = some kv.2 := by
    intro kv hkv
    refine ⟨?_, heq kv (List.mem_append.mpr (Or.inl hkv)),
      hmemcu kv (List.mem_append.mpr (Or.inl hkv))⟩
    intro hdt
    exact hdtpre (hdt ▸ List.mem_map.mpr ⟨kv, hkv, rfl⟩)
  have hskippost : ∀ kv ∈ post, kv.1 ≠ "delete_tag"
      ∧ lookupA row kv.1 = some kv.2 ∧ lookupA cu kv.1 = some kv.2 := by
    intro kv hkv
    refine ⟨?_, heq kv (List.mem_append.mpr (Or.inr hkv)),
      hmemcu kv (List.mem_append.mpr (Or.inr hkv))⟩
    intro hdt
    exact hdtpost (hdt ▸ List.mem_map.mpr ⟨kv, hkv, rfl⟩)
  have hdc : deleteCheck cu "delete_tag" st0 = Except.ok true := by
    unfold deleteCheck
    rw [if_pos rfl, hcuX]
    rfl
  obtain ⟨stp, hrunPre, hevPre, hdataPre, hsPre, hnPre, humPre, hclPre⟩ :=
    run_lambdas_pure_hooksFor PRECOMMIT_DELETE_LAMBDA pk row fsPre st0 d0 hpre hd
  have hpost2 : hooksFor ({ stp with s := eraseA stp.s (model, pk), ev := stp.ev ++ [Event.deleted model pk] } : CState).b POSTCOMMIT_DELETE_LAMBDA pk = List.map liftPure fsPost := by
    unfold hooksFor
    unfold hooksFor at hpost
    rw [show ({ stp with s := eraseA stp.s (model, pk), ev := stp.ev ++ [Event.deleted model pk] } : CState).b = stp.b from rfl, hclPre]
    exact hpost
  have hd2 : lookupA ({ stp with s := eraseA stp.s (model, pk), ev := stp.ev ++ [Event.deleted model pk] } : CState).b.commit_lambdas_data pk = some (fsPre.foldl (hookFoldStep row) d0) := hdataPre
  obtain ⟨stq, hrunPost, hevPost, hdataPost, hsPost, hnPost, humPost, hclPost⟩ :=
    run_lambdas_pure_hooksFor POSTCOMMIT_DELETE_LAMBDA pk row fsPost
      { stp with s := eraseA stp.s (model, pk), ev := stp.ev ++ [Event.deleted model pk] }
      (fsPre.foldl (hookFoldStep row) d0) hpost2 hd2
  have hcols2 : commitColumns model pk cu row post 0 ({ stq with n := stq.n + 1 } : CState)
      = Except.ok (({ stq with n := stq.n + 1 } : CState), 0) := by
    have h := commitColumns_skip_equal model pk cu row post [] 0
      ({ stq with n := stq.n + 1 } : CState) hskippost
    rw [List.append_nil] at h
    exact h
  have hcols : commitColumns model pk cu row cu 0 st0
      = Except.ok (({ stq with n := stq.n + 1 } : CState), 0) := by
    conv_lhs => rw [hcu]
    rw [commitColumns_skip_equal model pk cu row pre _ 0 st0 hskippre]
    rw [commitColumns]
    simp only [hdc, hrunPre, hrunPost, hcols2]
  refine ⟨{ stq with n := stq.n + 1 }, ?_, ?_, ?_, ?_⟩
  · rw [tryProcessRow, hrow]
    simp only [hcols]
    rw [if_neg (by omega)]
  · rw [show ({ stq with n := stq.n + 1 } : CState).s = stq.s from rfl, hsPost,
        show ({ stp with s := eraseA stp.s (model, pk), ev := stp.ev ++ [Event.deleted model pk] } : CState).s = eraseA stp.s (model, pk) from rfl, hsPre]
  · rw [show ({ stq with n := stq.n + 1 } : CState).n = stq.n + 1 from rfl, hnPost,
        show ({ stp with s := eraseA stp.s (model, pk), ev := stp.ev ++ [Event.deleted model pk] } : CState).n = stp.n from rfl, hnPre]
  · rw [show ({ stq with n := stq.n + 1 } : CState).ev = stq.ev from rfl, hevPost,
        show ({ stp with s := eraseA stp.s (model, pk), ev := stp.ev ++ [Event.deleted model pk] } : CState).ev = stp.ev ++ [Event.deleted model pk] from rfl, hevPre]
    simp [List.append_assoc]

/-- C1 (amended): for a staged pending update whose column map carries
`delete_tag` mapped to exactly the string `"X"` (the check on line 51 is
case sensitive) and whose every other staged column (if any) equals the
row's current attribute value, with the rowId present in the store and
never-raising hooks: `commit()` runs the pre-delete hooks, deletes the
row, runs the post-delete hooks -- each hook exactly once, in
registration order -- counts the row exactly once, and does not save the
row.  (The loop does not skip the other staged columns: a staged column
that differed would be processed after the deletion and raise, which is
why the amended claim restricts them to equal values.) -/
theorem C1_delete_amended (b : AdapterStaging) (s : Store) (model pk : Nat)
    (pre post : Columns) (row : Row)
    (fsPre fsPost : List (HookData → Row → Option HookData)) (d0 : HookData)
    (hmap : b.update_mapping
      = [(model, [(pk, pre ++ ("delete_tag", Value.str "X") :: post)])])
    (hrow : lookupA s (model, pk) = some row)
    (hnd : (((pre ++ ("delete_tag", Value.str "X") :: post).map Prod.fst)).Nodup)
    (heq : ∀ kv ∈ pre ++ post, lookupA row kv.1 = some kv.2)
    (hpre : hooksFor b PRECOMMIT_DELETE_LAMBDA pk = List.map liftPure fsPre)
    (hpost : hooksFor b POSTCOMMIT_DELETE_LAMBDA pk = List.map liftPure fsPost)
    (hd : lookupA b.commit_lambdas_data pk = some d0) :
    ∃ st, commit b s = Except.ok st
      ∧ st.s = eraseA s (model, pk)
      ∧ st.n = 1
      ∧ st.ev = (List.range fsPre.length).map (fun i => Event.hook PRECOMMIT_DELETE_LAMBDA pk i)
          ++ Event.deleted model pk
            :: (List.range fsPost.length).map
                (fun i => Event.hook POSTCOMMIT_DELETE_LAMBDA pk i) := by
  obtain ⟨st4, htry, hs4, hn4, hev4⟩ :=
    tryProcessRow_delete_pure model pk pre post row fsPre fsPost d0
      { s := s, b := b, ev := [], n := 0 } hrow hnd heq hpre hpost hd
  have hproc : processRow model pk (pre ++ ("delete_tag", Value.str "X") :: post)
      { s := s, b := b, ev := [], n := 0 } = Except.ok st4 := by
    rw [processRow, htry]
  refine ⟨st4, ?_, hs4, ?_, ?_⟩
  · rw [commit, hmap, commitModels, commitEntries]
    simp only [hproc]
    rfl
  · rw [hn4]
  · rw [hev4]
    simp

def rowC1 : Row := [("name", Value.str "a")]

def fsPreC1 : List (HookData → Row → Option HookData) := [fun _ _ => some [("w", Value.int 5)]]

def fsPostC1 : List (HookData → Row → Option HookData) := [fun d _ => some d]

def bufC1 : AdapterStaging :=
  { update_mapping := [(0, [(1, [("delete_tag", Value.str "X")])])],
    commit_lambdas := [((PRECOMMIT_DELETE_LAMBDA, 1), List.map liftPure fsPreC1),
                       ((POSTCOMMIT_DELETE_LAMBDA, 1), List.map liftPure fsPostC1)],
    commit_lambdas_data := [(1, [])] }

def storeC1 : Store := [((0, 1), rowC1)]

theorem C1_delete_amended_witness :
    ∃ st, commit bufC1 storeC1 = Except.ok st
      ∧ st.s = eraseA storeC1 (0, 1)
      ∧ st.n = 1
      ∧ st.ev = (List.range fsPreC1.length).map
            (fun i => Event.hook PRECOMMIT_DELETE_LAMBDA 1 i)
          ++ Event.deleted 0 1
            :: (List.range fsPostC1.length).map
                (fun i => Event.hook POSTCOMMIT_DELETE_LAMBDA 1 i) :=
  C1_delete_amended bufC1 storeC1 0 1 [] [] rowC1 fsPreC1 fsPostC1 []
    rfl rfl (by decide) (by simp) rfl rfl rfl

def bufC1x : AdapterStaging :=
  { update_mapping := [(0, [(1, [("delete_tag", Value.str "x")])])] }

def storeC1x : Store := [((0, 1), [("name", Value.str "a")])]

/-- C1 counterexample: the claim says a staged `delete_tag = "x"`
(case-insensitive match of "X") deletes the row and counts it once.  The
code's check (line 51) is `== 'X'`, case sensitive: with a lowercase "x"
the pair falls through to the `elif`, `getattr(row, 'delete_tag')` raises
`AttributeError` (a live row has no such attribute), the row is not
deleted and `commit()` raises instead of returning a count. -/
theorem C1_counterexample :
    errOf (commit bufC1x storeC1x) = some (Err.attributeErr "delete_tag")
    ∧ resultCount (commit bufC1x storeC1x) = Option.none
    ∧ resultStore (commit bufC1x storeC1x) = Option.none := by
  exact ⟨rfl, rfl, rfl⟩

/-! ### Claim C3 -/

/-- No registered hook ever raises `ObjectDoesNotExist` (a hook that does
would be swallowed by the per-row handler mid-row; see the C3
counterexample). -/
def noODEHooks (L : List ((String × Nat) × List Hook)) : Prop :=
  ∀ pp ∈ L, ∀ hk ∈ pp.2, ∀ d r, hk d r ≠ Except.error Err.objectDoesNotExist

/-- Python dict invariant: every staged column map has distinct keys. -/
def wfColumnsB (b : AdapterStaging) : Prop :=
  ∀ me ∈ b.update_mapping, ∀ pc ∈ me.2, ((pc.2.map Prod.fst).Nodup)

/-- Store invariant: one row per (model, pk). -/
def wfStore (s : Store) : Prop := (s.map Prod.fst).Nodup

theorem touchedRows_append (a b : List Event) :
    touchedRows (a ++ b) = touchedRows a ++ touchedRows b := by
  unfold touchedRows
  exact List.filterMap_append a b _

theorem touchedRows_length (ev : List Event) :
    (touchedRows ev).length
      = (ev.filter Event.isDeleted).length + (ev.filter Event.isSaved).length := by
  induction ev with
  | nil => rfl
  | cons e rest ih =>
      cases e with
      | hook phase pk idx =>
          simpa [touchedRows, List.filterMap_cons, List.filter_cons,
                 Event.isDeleted, Event.isSaved] using ih
      | deleted m pk =>
          simp only [touchedRows, List.filterMap_cons, List.filter_cons,
                 Event.isDeleted, Event.isSaved] at ih ⊢
          simp [ih]
          omega
      | saved m pk =>
          simp only [touchedRows, List.filterMap_cons, List.filter_cons,
                 Event.isDeleted, Event.isSaved] at ih ⊢
          simp [ih]
          omega

theorem runHooks_ok_inv (phase : String) (pk : Nat) (row : Row) :
    ∀ (hooks : List Hook) (idx : Nat) (st st1 : CState),
      runHooks phase pk row hooks idx st = Except.ok st1 →
      st1.s = st.s ∧ st1.n = st.n
        ∧ ∃ evs, st1.ev = st.ev ++ evs ∧ touchedRows evs = [] := by
  intro hooks
  induction hooks with
  | nil =>
      intro idx st st1 h
      injection h with h1
      subst h1
      exact ⟨rfl, rfl, [], by simp, rfl⟩
  | cons hk rest ih =>
      intro idx st st1 h
      rw [runHooks] at h
      split at h
      · exact absurd h (by simp)
      · split at h
        · exact absurd h (by simp)
        · obtain ⟨hs, hn, evs, hev, htch⟩ := ih (idx + 1) _ st1 h
          refine ⟨hs, hn, Event.hook phase pk idx :: evs, ?_, ?_⟩
          · rw [hev]
            simp
          · simp [touchedRows, List.filterMap_cons] at htch ⊢
            exact htch

theorem runHooks_error_noODE (phase : String) (pk : Nat) (row : Row) :
    ∀ (hooks : List Hook) (idx : Nat) (st : CState) (e : Err) (st1 : CState),
      (∀ hk ∈ hooks, ∀ d r, hk d r ≠ Except.error Err.objectDoesNotExist) →
      runHooks phase pk row hooks idx st = Except.error (e, st1) →
      e ≠ Err.objectDoesNotExist := by
  intro hooks
  induction hooks with
  | nil =>
      intro idx st e st1 _ h
      exact Except.noConfusion h
  | cons hk rest ih =>
      intro idx st e st1 hno h
      rw [runHooks] at h
      split at h
      · injection h with h1
        injection h1 with h2 h3
        subst h2
        simp
      · split at h
        · next e0 heq =>
            injection h with h1
            injection h1 with h2 h3
            subst h2
            intro hODE
            subst hODE
            exact hno hk (List.mem_cons_self _ _) _ row heq
        · exact ih (idx + 1) _ e st1
            (fun hk2 hm d r => hno hk2 (List.mem_cons_of_mem _ hm) d r) h

theorem run_lambdas_ok_inv (phase : String) (pk : Nat) (row : Row) (st st1 : CState)
    (h : _run_lambdas phase pk row st = Except.ok st1) :
    st1.s = st.s ∧ st1.n = st.n
      ∧ ∃ evs, st1.ev = st.ev ++ evs ∧ touchedRows evs = [] := by
  rw [_run_lambdas] at h
  split at h
  · injection h with h1
    subst h1
    exact ⟨rfl, rfl, [], by simp, rfl⟩
  · exact runHooks_ok_inv phase pk row _ 0 st st1 h

theorem run_lambdas_error_noODE (phase : String) (pk : Nat) (row : Row) (st : CState)
    (e : Err) (st1 : CState) (hno : noODEHooks st.b.commit_lambdas)
    (h : _run_lambdas phase pk row st = Except.error (e, st1)) :
    e ≠ Err.objectDoesNotExist := by
  rw [_run_lambdas] at h
  split at h
  · exact absurd h (by simp)
  · next hooks heq =>
      have hmem := mem_of_lookupA_eq_some _ _ _ heq
      exact runHooks_error_noODE phase pk row hooks 0 st e st1
        (fun hk hm d r => hno ((phase, pk), hooks) hmem hk hm d r) h

theorem deleteCheck_true_key (cu : Columns) (key : String) (st : CState)
    (h : deleteCheck cu key st = Except.ok true) : key = "delete_tag" := by
  unfold deleteCheck at h
  by_cases hk : key = "delete_tag"
  · exact hk
  · rw [if_neg hk] at h
    injection h with h1
    exact absurd h1.symm (by simp)

theorem deleteCheck_error_fst (cu : Columns) (key : String) (st : CState)
    (e0 : Err × CState) (h : deleteCheck cu key st = Except.error e0) :
    e0.1 = Err.keyErrCol key := by
  unfold deleteCheck at h
  by_cases hk : key = "delete_tag"
  · rw [if_pos hk] at h
    cases hlk : lookupA cu key with
    | none =>
        rw [hlk] at h
        injection h with h1
        rw [← h1]
    | some cuv =>
        rw [hlk] at h
        exact absurd h (by simp)
  · rw [if_neg hk] at h
    exact absurd h (by simp)

theorem getattr_error (row : Row) (k : String) (e : Err)
    (h : getattr row k = Except.error e) : e = Err.attributeErr k := by
  rw [getattr] at h
  split at h
  · exact absurd h (by simp)
  · injection h with h1
    exact h1.symm

theorem commitColumns_nodt (model pk : Nat) (cu : Columns) (row : Row) :
    ∀ (remaining : List (String × Value)) (c : Nat) (st st1 : CState) (c1 : Nat),
      "delete_tag" ∉ remaining.map Prod.fst →
      commitColumns model pk cu row remaining c st = Except.ok (st1, c1) →
      st1 = st ∧ c1 = c := by
  intro remaining
  induction remaining with
  | nil =>
      intro c st st1 c1 _ h
      injection h with h1
      injection h1 with h2 h3
      exact ⟨h2.symm, h3.symm⟩
  | cons kv rest ih =>
      intro c st st1 c1 hdt h
      obtain ⟨k, v⟩ := kv
      simp only [List.map_cons, List.mem_cons] at hdt
      push_neg at hdt
      have hdc : deleteCheck cu k st = Except.ok false := by
        unfold deleteCheck
        rw [if_neg (Ne.symm hdt.1)]
      rw [commitColumns] at h
      simp only [hdc] at h
      split at h
      · exact absurd h (by simp)
      · split at h
        · exact absurd h (by simp)
        · split at h
          · exact ih c st st1 c1 hdt.2 h
          · exact absurd h (by simp)

theorem commitColumns_ok_inv (model pk : Nat) (cu : Columns) (row : Row) :
    ∀ (remaining : List (String × Value)) (c : Nat) (st st1 : CState) (c1 : Nat),
      noODEHooks st.b.commit_lambdas →
      ((remaining.map Prod.fst).Nodup) →
      commitColumns model pk cu row remaining c st = Except.ok (st1, c1) →
      c1 = c ∧
      ∃ evs, st1.ev = st.ev ++ evs ∧
        ((touchedRows evs = [] ∧ st1.s = st.s ∧ st1.n = st.n)
         ∨ (touchedRows evs = [(model, pk)]
            ∧ st1.s = eraseA st.s (model, pk) ∧ st1.n = st.n + 1)) := by
  intro remaining
  induction remaining with
  | nil =>
      intro c st st1 c1 _ _ h
      injection h with h1
      injection h1 with h2 h3
      subst h2
      subst h3
      exact ⟨rfl, [], by simp, Or.inl ⟨rfl, rfl, rfl⟩⟩
  | cons kv rest ih =>
      intro c st st1 c1 hno hnd h
      obtain ⟨k, v⟩ := kv
      simp only [List.map_cons, List.nodup_cons] at hnd
      rw [commitColumns] at h
      split at h
      · exact absurd h (by simp)
      · next heqdc =>
          have hkey := deleteCheck_true_key cu k st heqdc
          split at h
          · exact absurd h (by simp)
          · next stp heqPre =>
              split at h
              · exact absurd h (by simp)
              · next stq heqPost =>
                  obtain ⟨hsPre, hnPre, evs1, hevPre, htchPre⟩ :=
                    run_lambdas_ok_inv PRECOMMIT_DELETE_LAMBDA pk row st stp heqPre
                  obtain ⟨hsPost, hnPost, evs2, hevPost, htchPost⟩ :=
                    run_lambdas_ok_inv POSTCOMMIT_DELETE_LAMBDA pk row _ stq heqPost
                  have hdtrest : "delete_tag" ∉ rest.map Prod.fst := by
                    rw [← hkey]
                    exact hnd.1
                  obtain ⟨hst1, hc1⟩ := commitColumns_nodt model pk cu row rest c
                    { stq with n := stq.n + 1 } st1 c1 hdtrest h
                  refine ⟨hc1, evs1 ++ Event.deleted model pk :: evs2, ?_, Or.inr ⟨?_, ?_, ?_⟩⟩
                  · rw [hst1]
                    rw [show ({ stq with n := stq.n + 1 } : CState).ev = stq.ev from rfl,
                        hevPost]
                    rw [show ({ stp with s := eraseA stp.s (model, pk), ev := stp.ev ++ [Event.deleted model pk] } : CState).ev = stp.ev ++ [Event.deleted model pk] from rfl,
                        hevPre]
                    simp
                  · rw [touchedRows_append, htchPre]
                    simp only [List.nil_append]
                    simp [touchedRows, List.filterMap_cons] at htchPost ⊢
                    exact htchPost
                  · rw [hst1]
                    rw [show ({ stq with n := stq.n + 1 } : CState).s = stq.s from rfl, hsPost]
                    rw [show ({ stp with s := eraseA stp.s (model, pk), ev := stp.ev ++ [Event.deleted model pk] } : CState).s = eraseA stp.s (model, pk) from rfl, hsPre]
                  · rw [hst1]
                    rw [show ({ stq with n := stq.n + 1 } : CState).n = stq.n + 1 from rfl,
                        hnPost]
                    rw [show ({ stp with s := eraseA stp.s (model, pk), ev := stp.ev ++ [Event.deleted model pk] } : CState).n = stp.n from rfl, hnPre]
      · split at h
        · exact absurd h (by simp)
        · split at h
          · exact absurd h (by simp)
          · split at h
            · exact ih c st st1 c1 hno hnd.2 h
            · exact absurd h (by simp)

theorem commitColumns_error_noODE (model pk : Nat) (cu : Columns) (row : Row) :
    ∀ (remaining : List (String × Value)) (c : Nat) (st : CState) (e : Err) (st2 : CState),
      noODEHooks st.b.commit_lambdas →
      commitColumns model pk cu row remaining c st = Except.error (e, st2) →
      e ≠ Err.objectDoesNotExist := by
  intro remaining
  induction remaining with
  | nil =>
      intro c st e st2 _ h
      exact Except.noConfusion h
  | cons kv rest ih =>
      intro c st e st2 hno h
      obtain ⟨k, v⟩ := kv
      rw [commitColumns] at h
      split at h
      · next e0 heqdc =>
          have hfst := deleteCheck_error_fst cu k st e0 heqdc
          injection h with h1
          rw [h1] at hfst
          rw [show ((e, st2) : Err × CState).1 = e from rfl] at hfst
          rw [hfst]
          simp
      · next heqdc =>
          split at h
          · next e0 heqPre =>
              obtain ⟨e1, stx⟩ := e0
              injection h with h1
              injection h1 with h2 h3
              subst h2
              exact run_lambdas_error_noODE PRECOMMIT_DELETE_LAMBDA pk row st e1 stx hno heqPre
          · next stp heqPre =>
              have hfr := frame_run_lambdas PRECOMMIT_DELETE_LAMBDA pk row st
              rw [heqPre] at hfr
              split at h
              · next e0 heqPost =>
                  obtain ⟨e1, stx⟩ := e0
                  injection h with h1
                  injection h1 with h2 h3
                  subst h2
                  refine run_lambdas_error_noODE POSTCOMMIT_DELETE_LAMBDA pk row
                    { stp with s := eraseA stp.s (model, pk), ev := stp.ev ++ [Event.deleted model pk] } e1 stx ?_ heqPost
                  show noODEHooks stp.b.commit_lambdas
                  have hc1 : stp.b.commit_lambdas = st.b.commit_lambdas := hfr.2
                  rw [hc1]
                  exact hno
              · next stq heqPost =>
                  have hfr2 := frame_run_lambdas POSTCOMMIT_DELETE_LAMBDA pk row
                    { stp with s := eraseA stp.s (model, pk), ev := stp.ev ++ [Event.deleted model pk] }
                  rw [heqPost] at hfr2
                  refine ih c { stq with n := stq.n + 1 } e st2 ?_ h
                  show noODEHooks stq.b.commit_lambdas
                  have hc2 : stq.b.commit_lambdas = stp.b.commit_lambdas := hfr2.2
                  have hc1 : stp.b.commit_lambdas = st.b.commit_lambdas := hfr.2
                  rw [hc2, hc1]
                  exact hno
      · split at h
        · next e0 heqga =>
            injection h with h1
            injection h1 with h2 h3
            subst h2
            rw [getattr_error row k e0 heqga]
            simp
        · next current heqga =>
            split at h
            · injection h with h1
              injection h1 with h2 h3
              subst h2
              simp
            · split at h
              · exact ih c st e st2 hno h
              · injection h with h1
                injection h1 with h2 h3
                subst h2
                simp

theorem tryProcessRow_ok_inv (model pk : Nat) (cu : Columns) (st st1 : CState)
    (hno : noODEHooks st.b.commit_lambdas) (hnd : (cu.map Prod.fst).Nodup)
    (hok : tryProcessRow model pk cu st = Except.ok st1) :
    ∃ evs, st1.ev = st.ev ++ evs ∧
      ((touchedRows evs = [] ∧ st1.s = st.s ∧ st1.n = st.n)
       ∨ (touchedRows evs = [(model, pk)] ∧ lookupA st.s (model, pk) ≠ Option.none
          ∧ st1.s = eraseA st.s (model, pk) ∧ st1.n = st.n + 1)) := by
  rw [tryProcessRow] at hok
  split at hok
  · exact absurd hok (by simp)
  · next row heqrow =>
      split at hok
      · exact absurd hok (by simp)
      · next stc c1 heqcc =>
          obtain ⟨hc1, evs, hev, hdisj⟩ :=
            commitColumns_ok_inv model pk cu row cu 0 st stc c1 hno hnd heqcc
          subst hc1
          split at hok
          · next hgt => exact absurd hgt (by omega)
          · injection hok with h1
            subst h1
            refine ⟨evs, hev, ?_⟩
            rcases hdisj with ⟨ht, hs, hn⟩ | ⟨ht, hs, hn⟩
            · exact Or.inl ⟨ht, hs, hn⟩
            · exact Or.inr ⟨ht, by rw [heqrow]; simp, hs, hn⟩

theorem tryProcessRow_ODE_state (model pk : Nat) (cu : Columns) (st st1 : CState)
    (hno : noODEHooks st.b.commit_lambdas)
    (h : tryProcessRow model pk cu st = Except.error (Err.objectDoesNotExist, st1)) :
    st1 = st := by
  rw [tryProcessRow] at h
  split at h
  · injection h with h1
    injection h1 with h2 h3
    exact h3.symm
  · next row heqrow =>
      split at h
      · next e0 heqcc =>
          obtain ⟨e1, stx⟩ := e0
          injection h with h1
          injection h1 with h2 h3
          subst h2
          exact absurd rfl
            (commitColumns_error_noODE model pk cu row cu 0 st _ stx hno heqcc)
      · next stc c1 heqcc =>
          have hfrc := frame_commitColumns model pk cu row cu 0 st
          rw [heqcc] at hfrc
          have hnoc : noODEHooks stc.b.commit_lambdas := by
            have hcc : stc.b.commit_lambdas = st.b.commit_lambdas := hfrc.2
            rw [hcc]
            exact hno
          split at h
          · split at h
            · next e0 heqpre =>
                obtain ⟨e1, stx⟩ := e0
                injection h with h1
                injection h1 with h2 h3
                subst h2
                exact absurd rfl
                  (run_lambdas_error_noODE PRECOMMIT_UPDATE_LAMBDA pk row stc _ stx hnoc heqpre)
            · next st2 heqpre =>
                have hfr2 := frame_run_lambdas PRECOMMIT_UPDATE_LAMBDA pk row stc
                rw [heqpre] at hfr2
                split at h
                · next e0 heqpost =>
                    obtain ⟨e1, stx⟩ := e0
                    injection h with h1
                    injection h1 with h2 h3
                    subst h2
                    refine absurd rfl
                      (run_lambdas_error_noODE POSTCOMMIT_UPDATE_LAMBDA pk row
                        { st2 with s := setItemA st2.s (model, pk) row, ev := st2.ev ++ [Event.saved model pk] } _ stx ?_ heqpost)
                    show noODEHooks st2.b.commit_lambdas
                    have ha : st2.b.commit_lambdas = stc.b.commit_lambdas := hfr2.2
                    rw [ha]
                    exact hnoc
                · exact absurd h (by simp)
          · exact absurd h (by simp)

theorem processRow_ok_inv (model pk : Nat) (cu : Columns) (st st1 : CState)
    (hno : noODEHooks st.b.commit_lambdas) (hnd : (cu.map Prod.fst).Nodup)
    (hok : processRow model pk cu st = Except.ok st1) :
    ∃ evs, st1.ev = st.ev ++ evs ∧
      ((touchedRows evs = [] ∧ st1.s = st.s ∧ st1.n = st.n)
       ∨ (touchedRows evs = [(model, pk)] ∧ lookupA st.s (model, pk) ≠ Option.none
          ∧ st1.s = eraseA st.s (model, pk) ∧ st1.n = st.n + 1)) := by
  rw [processRow] at hok
  cases htr : tryProcessRow model pk cu st with
  | ok stx =>
      rw [htr] at hok
      simp at hok
      subst hok
      exact tryProcessRow_ok_inv model pk cu st _ hno hnd htr
  | error e =>
      obtain ⟨e1, stx⟩ := e
      rw [htr] at hok
      cases e1 with
      | objectDoesNotExist =>
          simp at hok
          subst hok
          have hst := tryProcessRow_ODE_state model pk cu st _ hno htr
          rw [hst]
          exact ⟨[], by simp, Or.inl ⟨rfl, rfl, rfl⟩⟩
      | nameErr n => simp at hok
      | attributeErr n => simp at hok
      | keyErrData pk2 => simp at hok
      | keyErrCol k => simp at hok
      | valueErr m => simp at hok
      | lookupErr m => simp at hok
      | custom code => simp at hok

theorem commitEntries_count (model : Nat) :
    ∀ (entries : List (Nat × Columns)) (st st1 : CState),
      noODEHooks st.b.commit_lambdas →
      (∀ pc ∈ entries, ((pc.2.map Prod.fst).Nodup)) →
      wfStore st.s →
      commitEntries model entries st = Except.ok st1 →
      ∃ tch : List (Nat × Nat), st1.n = st.n + tch.length
        ∧ (∃ evs, st1.ev = st.ev ++ evs ∧ touchedRows evs = tch)
        ∧ tch.Nodup
        ∧ (∀ p ∈ tch, lookupA st.s p ≠ Option.none)
        ∧ (∀ p ∈ tch, lookupA st1.s p = Option.none)
        ∧ (∀ q, lookupA st.s q = Option.none → lookupA st1.s q = Option.none)
        ∧ wfStore st1.s := by
  intro entries
  induction entries with
  | nil =>
      intro st st1 _ _ hwfs h
      injection h with h1
      subst h1
      exact ⟨[], rfl, ⟨[], by simp, rfl⟩, List.nodup_nil, by simp, by simp,
        fun q hq => hq, hwfs⟩
  | cons pc rest ih =>
      intro st st1 hno hnd hwfs h
      obtain ⟨pk, cu⟩ := pc
      rw [commitEntries] at h
      split at h
      · exact absurd h (by simp)
      · next stm heqp =>
          have hfrm := frame_processRow model pk cu st
          rw [heqp] at hfrm
          have hcl : stm.b.commit_lambdas = st.b.commit_lambdas := hfrm.2
          have hnom : noODEHooks stm.b.commit_lambdas := by
            rw [hcl]
            exact hno
          obtain ⟨evs1, hev1, hd1⟩ :=
            processRow_ok_inv model pk cu st stm hno
              (hnd (pk, cu) (List.mem_cons_self _ _)) heqp
          rcases hd1 with ⟨ht1, hs1, hn1⟩ | ⟨ht1, hpres, hs1, hn1⟩
          · have hwfm : wfStore stm.s := by
              rw [hs1]
              exact hwfs
            obtain ⟨tch, hn, ⟨evs2, hev2, ht2⟩, hnd2, hpres2, habs2, hmono2, hwf2⟩ :=
              ih stm st1 hnom (fun q hq => hnd q (List.mem_cons_of_mem _ hq)) hwfm h
            refine ⟨tch, ?_, ⟨evs1 ++ evs2, ?_, ?_⟩, hnd2, ?_, habs2, ?_, hwf2⟩
            · rw [hn, hn1]
            · rw [hev2, hev1]
              simp
            · rw [touchedRows_append, ht1, ht2]
              simp
            · intro p hp
              have hpr := hpres2 p hp
              rw [hs1] at hpr
              exact hpr
            · intro q hq
              apply hmono2
              rw [hs1]
              exact hq
          · have hwfm : wfStore stm.s := by
              rw [hs1]
              exact keys_eraseA_nodup _ _ hwfs
            obtain ⟨tch, hn, ⟨evs2, hev2, ht2⟩, hnd2, hpres2, habs2, hmono2, hwf2⟩ :=
              ih stm st1 hnom (fun q hq => hnd q (List.mem_cons_of_mem _ hq)) hwfm h
            have hmabs : lookupA stm.s (model, pk) = Option.none := by
              rw [hs1]
              exact lookupA_eraseA_self_nodup _ _ hwfs
            refine ⟨(model, pk) :: tch, ?_, ⟨evs1 ++ evs2, ?_, ?_⟩, ?_, ?_, ?_, ?_, hwf2⟩
            · rw [hn, hn1, List.length_cons]
              omega
            · rw [hev2, hev1]
              simp
            · rw [touchedRows_append, ht1, ht2]
              rfl
            · rw [List.nodup_cons]
              refine ⟨?_, hnd2⟩
              intro hmem
              exact hpres2 (model, pk) hmem hmabs
            · intro p hp
              rcases List.mem_cons.mp hp with h1 | h1
              · rw [h1]
                exact hpres
              · intro hqnone
                exact hpres2 p h1 (by rw [hs1]; exact lookupA_eraseA_of_none _ _ _ hqnone)
            · intro p hp
              rcases List.mem_cons.mp hp with h1 | h1
              · rw [h1]
                exact hmono2 _ hmabs
              · exact habs2 p h1
            · intro q hq
              apply hmono2
              rw [hs1]
              exact lookupA_eraseA_of_none _ _ _ hq

theorem commitModels_count :
    ∀ (models : List (Nat × List (Nat × Columns))) (st st1 : CState),
      noODEHooks st.b.commit_lambdas →
      (∀ me ∈ models, ∀ pc ∈ me.2, ((pc.2.map Prod.fst).Nodup)) →
      wfStore st.s →
      commitModels models st = Except.ok st1 →
      ∃ tch : List (Nat × Nat), st1.n = st.n + tch.length
        ∧ (∃ evs, st1.ev = st.ev ++ evs ∧ touchedRows evs = tch)
        ∧ tch.Nodup
        ∧ (∀ p ∈ tch, lookupA st.s p ≠ Option.none)
        ∧ (∀ p ∈ tch, lookupA st1.s p = Option.none)
        ∧ (∀ q, lookupA st.s q = Option.none → lookupA st1.s q = Option.none)
        ∧ wfStore st1.s := by
  intro models
  induction models with
  | nil =>
      intro st st1 _ _ hwfs h
      injection h with h1
      subst h1
      exact ⟨[], rfl, ⟨[], by simp, rfl⟩, List.nodup_nil, by simp, by simp,
        fun q hq => hq, hwfs⟩
  | cons me rest ih =>
      intro st st1 hno hnd hwfs h
      obtain ⟨model, entries⟩ := me
      rw [commitModels] at h
      split at h
      · exact absurd h (by simp)
      · next stm heqe =>
          have hfrm := frame_commitEntries model entries st
          rw [heqe] at hfrm
          have hcl : stm.b.commit_lambdas = st.b.commit_lambdas := hfrm.2
          have hnom : noODEHooks stm.b.commit_lambdas := by
            rw [hcl]
            exact hno
          obtain ⟨tch1, hn1, ⟨evs1, hev1, ht1⟩, hnd1, hpres1, habs1, hmono1, hwf1⟩ :=
            commitEntries_count model entries st stm hno
              (fun pc hpc => hnd (model, entries) (List.mem_cons_self _ _) pc hpc) hwfs heqe
          obtain ⟨tch2, hn2, ⟨evs2, hev2, ht2⟩, hnd2, hpres2, habs2, hmono2, hwf2⟩ :=
            ih stm st1 hnom (fun q hq => hnd q (List.mem_cons_of_mem _ hq)) hwf1 h
          refine ⟨tch1 ++ tch2, ?_, ⟨evs1 ++ evs2, ?_, ?_⟩, ?_, ?_, ?_, ?_, hwf2⟩
          · rw [hn2, hn1, List.length_append]
            omega
          · rw [hev2, hev1]
            simp
          · rw [touchedRows_append, ht1, ht2]
          · rw [List.nodup_append]
            refine ⟨hnd1, hnd2, ?_⟩
            intro p hp1 hp2
            exact hpres2 p hp2 (habs1 p hp1)
          · intro p hp
            rcases List.mem_append.mp hp with h1 | h1
            · exact hpres1 p h1
            · intro hqnone
              exact hpres2 p h1 (hmono1 p hqnone)
          · intro p hp
            rcases List.mem_append.mp hp with h1 | h1
            · exact hmono2 _ (habs1 p h1)
            · exact habs2 p h1
          · intro q hq
            exact hmono2 q (hmono1 q hq)

/-- C3: amended.  `commit()`'s return value equals the number of rows
actually deleted plus the number of rows actually saved, and no row
contributes more than once — PROVIDED no hook raises
`ObjectDoesNotExist`.  (As stated the claim is false: the per-row
`except ObjectDoesNotExist: pass` of lines 66-67 also swallows an
`ObjectDoesNotExist` raised by a post-delete hook after `row.delete()`
has already run, leaving a genuinely deleted row uncounted — see
`C3_counterexample`.)  Rows with zero changed columns, and rows missing
from the store, contribute nothing; every counted row existed in the
store before the commit and each (model, pk) pair is counted at most
once. -/
theorem C3_count_amended (b : AdapterStaging) (s : Store) (st1 : CState)
    (hode : noODEHooks b.commit_lambdas)
    (hwf : wfColumnsB b)
    (hs : wfStore s)
    (hok : commit b s = Except.ok st1) :
    st1.n = (st1.ev.filter Event.isDeleted).length + (st1.ev.filter Event.isSaved).length
    ∧ (touchedRows st1.ev).Nodup := by
  obtain ⟨tch, hn, ⟨evs, hev, htch⟩, hnd, _, _, _, _⟩ :=
    commitModels_count b.update_mapping { s := s, b := b, ev := [], n := 0 } st1
      hode hwf hs hok
  have hev1 : st1.ev = evs := by
    have h0 : st1.ev = [] ++ evs := hev
    rw [List.nil_append] at h0
    exact h0
  have hn1 : st1.n = tch.length := by
    have h0 : st1.n = 0 + tch.length := hn
    omega
  constructor
  · rw [hn1, hev1, ← touchedRows_length, htch]
  · rw [hev1, htch]
    exact hnd

def bufC3w : AdapterStaging :=
  { update_mapping := [(0, [(1, [("delete_tag", Value.str "X")])])] }

def storeC3w : Store := [((0, 1), [("name", Value.str "a")])]

def stC3w : CState := { s := [], b := bufC3w, ev := [Event.deleted 0 1], n := 1 }

theorem C3_count_amended_witness :
    stC3w.n = (stC3w.ev.filter Event.isDeleted).length + (stC3w.ev.filter Event.isSaved).length
    ∧ (touchedRows stC3w.ev).Nodup :=
  C3_count_amended bufC3w storeC3w stC3w
    (by intro pp hpp; simp [bufC3w] at hpp)
    (by unfold wfColumnsB; decide)
    (by unfold wfStore; decide)
    rfl

def hODEC3 : Hook := fun _ _ => Except.error Err.objectDoesNotExist

def bufC3 : AdapterStaging :=
  { update_mapping := [(0, [(1, [("delete_tag", Value.str "X")])])],
    commit_lambdas := [((POSTCOMMIT_DELETE_LAMBDA, 1), [hODEC3])],
    commit_lambdas_data := [(1, [])] }

def storeC3 : Store := [((0, 1), [("name", Value.str "a")])]

/-- Counterexample to C3 as stated: one staged delete whose post-delete
hook raises `ObjectDoesNotExist`.  The row IS deleted from the store
(the store comes back empty and the trace shows the deletion), yet the
hook's exception reaches the per-row `except ObjectDoesNotExist: pass`
before `rows_updated += 1` runs, so `commit()` returns 0 — one row
actually deleted, zero counted. -/
theorem C3_counterexample :
    resultCount (commit bufC3 storeC3) = some 0
    ∧ resultStore (commit bufC3 storeC3) = some []
    ∧ resultEvents (commit bufC3 storeC3) = some [Event.deleted 0 1] :=
  ⟨rfl, rfl, rfl⟩
